import Mathlib

/-!
Verification of the probabilistic interleaving engine of this repository
(source: src/interleaving/probabilistic.py).

The Python code is shallowly embedded as executable Lean definitions:

* IEEE floats are modelled by exact rationals; the skew parameter tau
  (a positive float in the source, 3.0 by default) is modelled by a
  positive natural exponent, so that 1 / r ** tau is an exact rational.
* The process-wide memoization performed by DictDependingOnTau and its
  subclasses is semantically transparent (pure caching of pure values),
  so the caches are embedded as the pure functions they memoize.
* Randomness (np.random.randint, np.random.random, np.random.shuffle) is
  modelled by explicit oracle arguments: a stream of ranker indices, a
  stream of rationals in [0, 1), and a shuffle function.  Theorems
  quantify over these oracles.
* The linked-node structure RemovalList is embedded as the list of its
  surviving (node-identity, value) pairs together with the predecessor
  dictionary mapping a value to the identity of the node holding it, and
  the identity of the current tail node (self.last).  The node pool only
  recycles storage and has no observable effect on values, so it is not
  modelled.
* A Python function that can fall through without returning, or not
  return at all, is embedded with an Option result, where none stands
  for the absent return value.
-/

namespace Interleaving

/-! ### Association lists with Python dict semantics

The dict fields of RemovalList are embedded as association lists with
unique keys: insertion overwrites in place, deletion removes the key. -/

/-- Lookup of a key in an association list (Python d[k] / k in d). -/
def lookupA {α : Type} [DecidableEq α] : List (α × ℕ) → α → Option ℕ
  | [], _ => none
  | p :: rest, k => if p.1 = k then some p.2 else lookupA rest k

/-- Insertion with overwrite (Python d[k] = v): an existing key keeps its
position and gets the new value, a new key is appended. -/
def insertA {α : Type} [DecidableEq α] : List (α × ℕ) → α → ℕ → List (α × ℕ)
  | [], k, v => [(k, v)]
  | p :: rest, k, v => if p.1 = k then (k, v) :: rest else p :: insertA rest k v

/-- Deletion of a key (Python d.pop(k)). -/
def eraseA {α : Type} [DecidableEq α] : List (α × ℕ) → α → List (α × ℕ)
  | [], _ => []
  | p :: rest, k => if p.1 = k then rest else p :: eraseA rest k

/-- Keys of an association list, in insertion order (Python d.keys()). -/
def keysA {α : Type} (d : List (α × ℕ)) : List α := d.map Prod.fst

/-! ### The cumulative-distribution caches

CumulationCache.SumCache.MemberCache.__missing__ computes 1.0 / r ** tau;
SumCache.__missing__ sums these for r in range(1, n + 1); and
CumulationCache.__missing__ builds the cumulative table for a length. -/

/-- MemberCache.__missing__ : the rank weight 1 / r ^ tau. -/
def memberCache (tau r : ℕ) : ℚ := 1 / (r : ℚ) ^ tau

/-- SumCache.__missing__ : the sum of 1 / r ^ tau over r in [1, n]. -/
def sumCache (tau n : ℕ) : ℚ := ((List.range' 1 n).map (memberCache tau)).sum

/-- Loop of CumulationCache.__missing__ : running numerator over the given
ranks, each entry being numerator / denominator, with a final literal 1
appended (result.append(1) in the source). -/
def cumulAux (tau : ℕ) (denominator : ℚ) : List ℕ → ℚ → List ℚ
  | [], _ => [1]
  | r :: rest, numerator =>
    ((numerator + memberCache tau r) / denominator) ::
      cumulAux tau denominator rest (numerator + memberCache tau r)

/-- CumulationCache.__missing__ : the cumulative table for a surviving
length l, iterating r over range(1, l) and appending the exact 1. -/
def cumulationCache (tau l : ℕ) : List ℚ :=
  cumulAux tau (sumCache tau l) (List.range' 1 (l - 1)) 0

theorem sumCache_zero (tau : ℕ) : sumCache tau 0 = 0 := rfl

theorem sumCache_succ (tau n : ℕ) :
    sumCache tau (n + 1) = sumCache tau n + memberCache tau (n + 1) := by
  unfold sumCache
  rw [List.range'_concat]
  simp [Nat.add_comm]

theorem memberCache_pos (tau : ℕ) {r : ℕ} (hr : 1 ≤ r) : 0 < memberCache tau r := by
  unfold memberCache
  positivity

theorem sumCache_nonneg (tau n : ℕ) : 0 ≤ sumCache tau n := by
  induction n with
  | zero => simp [sumCache_zero]
  | succ n ih =>
    rw [sumCache_succ]
    have := memberCache_pos tau (Nat.succ_le_succ (Nat.zero_le n))
    linarith

theorem sumCache_pos (tau : ℕ) {n : ℕ} (hn : 1 ≤ n) : 0 < sumCache tau n := by
  induction n with
  | zero => omega
  | succ n _ =>
    rw [sumCache_succ]
    have h1 := memberCache_pos tau (Nat.succ_le_succ (Nat.zero_le n))
    have h2 := sumCache_nonneg tau n
    linarith

theorem sumCache_mono (tau : ℕ) {m n : ℕ} (h : m ≤ n) :
    sumCache tau m ≤ sumCache tau n := by
  induction n with
  | zero => simp [Nat.le_zero.mp h]
  | succ n ih =>
    rcases Nat.lt_or_ge m (n + 1) with hlt | hge
    · have := ih (Nat.lt_succ_iff.mp hlt)
      rw [sumCache_succ]
      have := memberCache_pos tau (Nat.succ_le_succ (Nat.zero_le n))
      linarith
    · have : m = n + 1 := le_antisymm h hge
      simp [this]

theorem cumulAux_range' (tau : ℕ) (d : ℚ) :
    ∀ (m s : ℕ), 1 ≤ s →
      cumulAux tau d (List.range' s m) (sumCache tau (s - 1)) =
        (List.range' s m).map (fun r => sumCache tau r / d) ++ [1] := by
  intro m
  induction m with
  | zero => intro s _; simp [cumulAux]
  | succ m ih =>
    intro s hs
    have hrange : List.range' s (m + 1) = s :: List.range' (s + 1) m := by
      simp [List.range'_succ]
    have hsum : sumCache tau (s - 1) + memberCache tau s = sumCache tau s := by
      have : s - 1 + 1 = s := Nat.succ_pred_eq_of_pos hs
      calc sumCache tau (s - 1) + memberCache tau s
          = sumCache tau (s - 1) + memberCache tau (s - 1 + 1) := by rw [this]
        _ = sumCache tau (s - 1 + 1) := (sumCache_succ tau (s - 1)).symm
        _ = sumCache tau s := by rw [this]
    rw [hrange]
    show ((sumCache tau (s - 1) + memberCache tau s) / d) ::
        cumulAux tau d (List.range' (s + 1) m) (sumCache tau (s - 1) + memberCache tau s) =
      (s :: List.range' (s + 1) m).map (fun r => sumCache tau r / d) ++ [1]
    rw [hsum]
    have hs1 : sumCache tau ((s + 1) - 1) = sumCache tau s := by simp
    have := ih (s + 1) (by omega)
    rw [hs1] at this
    rw [this]
    simp

/-- Closed form of the cumulative table: the partial-sum quotients for
ranks 1 .. l-1 followed by the exact 1. -/
theorem cumulationCache_eq (tau l : ℕ) :
    cumulationCache tau l =
      (List.range' 1 (l - 1)).map (fun r => sumCache tau r / sumCache tau l) ++ [1] := by
  unfold cumulationCache
  have h0 : (0 : ℚ) = sumCache tau 0 := rfl
  rw [h0]
  exact cumulAux_range' tau (sumCache tau l) (l - 1) 1 (le_refl 1)

theorem cumulationCache_length (tau l : ℕ) (hl : 1 ≤ l) :
    (cumulationCache tau l).length = l := by
  rw [cumulationCache_eq]
  simp
  omega

theorem cumulationCache_getLast? (tau l : ℕ) :
    (cumulationCache tau l).getLast? = some 1 := by
  rw [cumulationCache_eq]
  simp

/-- Entry l - 1 of the table (its last entry) is the exact 1. -/
theorem cumulationCache_getD_last (tau l : ℕ) :
    (cumulationCache tau l).getD (l - 1) 0 = 1 := by
  rw [cumulationCache_eq]
  have hlen : ((List.range' 1 (l - 1)).map
      (fun r => sumCache tau r / sumCache tau l)).length = l - 1 := by simp
  rw [List.getD_eq_getElem?_getD, List.getElem?_append_right (by omega)]
  simp [hlen]

theorem cumulationCache_getD (tau l : ℕ) {i : ℕ} (hi : i < l - 1) :
    (cumulationCache tau l).getD i 0 = sumCache tau (i + 1) / sumCache tau l := by
  rw [cumulationCache_eq]
  have hlen : ((List.range' 1 (l - 1)).map
      (fun r => sumCache tau r / sumCache tau l)).length = l - 1 := by simp
  rw [List.getD_eq_getElem?_getD, List.getElem?_append_left (by simp [hlen]; omega)]
  rw [List.getElem?_eq_getElem (by simp [hlen]; omega)]
  simp [Nat.add_comm]

theorem cumulationCache_sorted (tau l : ℕ) :
    List.Sorted (· ≤ ·) (cumulationCache tau l) := by
  rw [cumulationCache_eq]
  unfold List.Sorted
  rw [List.pairwise_append]
  refine ⟨?_, ?_, ?_⟩
  · rw [List.pairwise_map]
    have : List.Pairwise (· < ·) (List.range' 1 (l - 1)) := List.pairwise_lt_range' 1 (l - 1)
    refine this.imp ?_
    intro a b hab
    exact div_le_div_of_nonneg_right (sumCache_mono tau (Nat.le_of_lt hab))
      (sumCache_nonneg tau l)
  · simp
  · intro x hx y hy
    simp at hy
    subst hy
    simp at hx
    obtain ⟨r, hr, hval⟩ := hx
    subst hval
    by_cases hl : 1 ≤ l
    · have hrl : r ≤ l := by
        rcases hr with ⟨hr1, hr2⟩
        omega
      have := sumCache_mono tau hrl
      have hpos := sumCache_pos tau hl
      rw [div_le_one hpos]
      exact this
    · have : l = 0 := by omega
      subst this
      rcases hr with ⟨hr1, hr2⟩
      omega

/-- Sum form used in the statement of claim C4: the list-based cache sum
agrees with the closed interval sum. -/
theorem sumCache_eq_sum_Icc (tau n : ℕ) :
    sumCache tau n = ∑ r in Finset.Icc 1 n, 1 / (r : ℚ) ^ tau := by
  induction n with
  | zero => simp [sumCache_zero]
  | succ n ih =>
    rw [sumCache_succ, ih, Finset.sum_Icc_succ_top (by omega)]
    rfl

/-! ### RemovalList

The linked structure of RemovalNode / RemovalList stores the value of
each surviving element in the next_value field of its predecessor node:
after appending v1 .. vm, the head (the RemovalList object itself) holds
v1, the first allocated node holds v2, and so on, with an empty tail
node at the end.  The embedding keeps

* chain : the surviving (node identity, held value) pairs in link order,
  the tail node (whose next_value is None) being omitted;
* dict  : the Python dict mapping a value to the identity of the node
  holding it (self.dict[value] = predecessor-of-value in the source);
* fresh : the identity of the current tail node (self.last), which is
  also the next identity to hand out on append.

Node identities replace Python object identity; the class-wide node pool
only recycles storage and is not modelled. -/

structure RemovalList (α : Type) where
  chain : List (ℕ × α)
  dict : List (α × ℕ)
  fresh : ℕ
deriving DecidableEq

namespace RemovalList

variable {α : Type} [DecidableEq α]

/-- RemovalList() : the empty list, head node identity 0. -/
def empty : RemovalList α := ⟨[], [], 0⟩

/-- RemovalList.append : the tail node (identity fresh) receives the
value, the dict records it (self.dict[value] = self.last, overwriting a
previous binding of the same value), and a new tail is taken.  The
source performs no duplicate check. -/
def append (rl : RemovalList α) (value : α) : RemovalList α :=
  ⟨rl.chain ++ [(rl.fresh, value)], insertA rl.dict value rl.fresh, rl.fresh + 1⟩

/-- RemovalList.__init__(l) : append every element of l in order. -/
def ofList (l : List α) : RemovalList α := l.foldl append empty

/-- RemovalList.get_length : len(self.dict). -/
def get_length (rl : RemovalList α) : ℕ := rl.dict.length

/-- Values of the surviving elements in traversal order (following the
next links from the head, as choice_one_of does). -/
def chainValues (rl : RemovalList α) : List α := rl.chain.map Prod.snd

/-- Node identities of the chain in traversal order. -/
def chainIds (rl : RemovalList α) : List ℕ := rl.chain.map Prod.fst

/-- RemovalNode.remove_next on the node with the given identity: that
node takes over the value of its successor, which is unlinked; the new
next_value (None at the end of the chain) is returned.  If the identity
is absent (a dangling dict entry, reachable only after duplicate
appends), the chain is returned unchanged. -/
def chainRemove : List (ℕ × α) → ℕ → List (ℕ × α) × Option α
  | [], _ => ([], none)
  | p :: rest, pid =>
    if p.1 = pid then
      match rest with
      | [] => ([], none)
      | q :: rest2 => ((pid, q.2) :: rest2, some q.2)
    else
      let r := chainRemove rest pid
      (p :: r.1, r.2)

/-- RemovalList.remove : pop the predecessor node from the dict, unlink
the value via remove_next, and re-point the dict entry of the new
next_value (when not None) at that node.  A value absent from the dict
is a no-op. -/
def remove (rl : RemovalList α) (value : α) : RemovalList α :=
  match lookupA rl.dict value with
  | none => rl
  | some pid =>
    let d := eraseA rl.dict value
    let r := chainRemove rl.chain pid
    match r.2 with
    | none => ⟨r.1, d, rl.fresh⟩
    | some w => ⟨r.1, insertA d w pid, rl.fresh⟩

/-- RemovalList.truncate : remove every key of a snapshot of the dict. -/
def truncate (rl : RemovalList α) : RemovalList α :=
  (keysA rl.dict).foldl remove rl

end RemovalList

/-! ### Association list lemmas -/

section AssocLemmas

variable {α : Type}

theorem keysA_nil : keysA ([] : List (α × ℕ)) = [] := rfl

theorem keysA_cons (p : α × ℕ) (d : List (α × ℕ)) : keysA (p :: d) = p.1 :: keysA d := rfl

theorem mem_keysA {d : List (α × ℕ)} {v : α} : v ∈ keysA d ↔ ∃ id, (v, id) ∈ d := by
  constructor
  · intro h
    rcases List.mem_map.mp h with ⟨p, hp, he⟩
    exact ⟨p.2, by rwa [show (v, p.2) = p from by rw [← he]]⟩
  · rintro ⟨id, h⟩
    exact List.mem_map.mpr ⟨(v, id), h, rfl⟩

variable [DecidableEq α]

theorem lookupA_eq_none {d : List (α × ℕ)} {k : α} :
    lookupA d k = none ↔ k ∉ keysA d := by
  induction d with
  | nil => simp [lookupA, keysA]
  | cons p rest ih =>
    by_cases h : p.1 = k
    · simp [lookupA, h, keysA_cons]
    · simp only [lookupA, if_neg h, keysA_cons, List.mem_cons]
      rw [ih]
      constructor
      · intro hn hc
        rcases hc with hc | hc
        · exact h hc.symm
        · exact hn hc
      · intro hn hc
        exact hn (Or.inr hc)

theorem lookupA_mem {d : List (α × ℕ)} {k : α} {v : ℕ}
    (h : lookupA d k = some v) : (k, v) ∈ d := by
  induction d with
  | nil => simp [lookupA] at h
  | cons p rest ih =>
    obtain ⟨a, b⟩ := p
    by_cases hp : a = k
    · rw [lookupA, if_pos hp] at h
      have hb : b = v := by injection h
      subst hp hb
      exact List.mem_cons_self _ _
    · rw [lookupA, if_neg hp] at h
      exact List.mem_cons_of_mem _ (ih h)

theorem eraseA_sublist (d : List (α × ℕ)) (k : α) : (eraseA d k).Sublist d := by
  induction d with
  | nil => simp [eraseA]
  | cons p rest ih =>
    by_cases hp : p.1 = k
    · rw [eraseA, if_pos hp]
      exact (List.sublist_cons_self p rest)
    · rw [eraseA, if_neg hp]
      exact ih.cons₂ p

theorem keysA_eraseA_nodup {d : List (α × ℕ)} {k : α} (h : (keysA d).Nodup) :
    (keysA (eraseA d k)).Nodup :=
  ((eraseA_sublist d k).map Prod.fst).nodup h

theorem mem_eraseA {d : List (α × ℕ)} (hn : (keysA d).Nodup) {k v : α} {id : ℕ} :
    (v, id) ∈ eraseA d k ↔ v ≠ k ∧ (v, id) ∈ d := by
  induction d with
  | nil => simp [eraseA]
  | cons p rest ih =>
    obtain ⟨a, b⟩ := p
    rw [keysA_cons, List.nodup_cons] at hn
    have hvk : (v, id) ∈ rest → v ∈ keysA rest := fun h => mem_keysA.mpr ⟨id, h⟩
    by_cases hp : a = k
    · rw [eraseA, if_pos hp]
      subst hp
      constructor
      · intro h
        refine ⟨fun he => hn.1 ?_, List.mem_cons_of_mem _ h⟩
        subst he
        exact hvk h
      · rintro ⟨hne, h⟩
        rcases List.mem_cons.mp h with he | h
        · exact absurd (congrArg Prod.fst he) hne
        · exact h
    · rw [eraseA, if_neg hp]
      simp only [List.mem_cons, Prod.mk.injEq]
      rw [ih hn.2]
      constructor
      · rintro (⟨h1, h2⟩ | ⟨hne, h⟩)
        · subst h1
          exact ⟨fun hc => hp hc, Or.inl ⟨rfl, h2⟩⟩
        · exact ⟨hne, Or.inr h⟩
      · rintro ⟨hne, ⟨h1, h2⟩ | h⟩
        · exact Or.inl ⟨h1, h2⟩
        · exact Or.inr ⟨hne, h⟩

theorem mem_keysA_eraseA {d : List (α × ℕ)} (hn : (keysA d).Nodup) {k v : α} :
    v ∈ keysA (eraseA d k) ↔ v ≠ k ∧ v ∈ keysA d := by
  rw [mem_keysA]
  constructor
  · rintro ⟨id, h⟩
    rw [mem_eraseA hn] at h
    exact ⟨h.1, mem_keysA.mpr ⟨id, h.2⟩⟩
  · rintro ⟨hne, h⟩
    rcases mem_keysA.mp h with ⟨id, hid⟩
    exact ⟨id, (mem_eraseA hn).mpr ⟨hne, hid⟩⟩

theorem length_eraseA_of_mem {d : List (α × ℕ)} {k : α} (h : k ∈ keysA d) :
    (eraseA d k).length + 1 = d.length := by
  induction d with
  | nil => simp [keysA] at h
  | cons p rest ih =>
    by_cases hp : p.1 = k
    · rw [eraseA, if_pos hp]
      simp
    · rw [eraseA, if_neg hp]
      rw [keysA_cons, List.mem_cons] at h
      rcases h with h | h
      · exact absurd h.symm hp
      · simp [ih h]

theorem mem_insertA {d : List (α × ℕ)} (hn : (keysA d).Nodup) {k v : α} {x id : ℕ} :
    (v, id) ∈ insertA d k x ↔ (v = k ∧ id = x) ∨ (v ≠ k ∧ (v, id) ∈ d) := by
  induction d with
  | nil =>
    simp only [insertA, List.mem_singleton, List.not_mem_nil, and_false, or_false,
      Prod.mk.injEq]
  | cons p rest ih =>
    obtain ⟨a, b⟩ := p
    rw [keysA_cons, List.nodup_cons] at hn
    have hvk : ∀ {id' : ℕ}, (v, id') ∈ rest → v ∈ keysA rest :=
      fun h => mem_keysA.mpr ⟨_, h⟩
    by_cases hp : a = k
    · rw [insertA, if_pos hp]
      subst hp
      simp only [List.mem_cons, Prod.mk.injEq]
      constructor
      · rintro (⟨h1, h2⟩ | h)
        · exact Or.inl ⟨h1, h2⟩
        · refine Or.inr ⟨fun he => hn.1 ?_, Or.inr h⟩
          subst he
          exact hvk h
      · rintro (⟨h1, h2⟩ | ⟨hne, ⟨h1, h2⟩ | h⟩)
        · exact Or.inl ⟨h1, h2⟩
        · exact absurd h1 hne
        · exact Or.inr h
    · rw [insertA, if_neg hp]
      simp only [List.mem_cons, Prod.mk.injEq]
      rw [ih hn.2]
      constructor
      · rintro (⟨h1, h2⟩ | h)
        · subst h1
          exact Or.inr ⟨fun hc => hp hc, Or.inl ⟨rfl, h2⟩⟩
        · tauto
      · rintro (⟨h1, h2⟩ | ⟨hne, ⟨h1, h2⟩ | h⟩)
        · exact Or.inr (Or.inl ⟨h1, h2⟩)
        · exact Or.inl ⟨h1, h2⟩
        · exact Or.inr (Or.inr ⟨hne, h⟩)

theorem mem_keysA_insertA {d : List (α × ℕ)} {k v : α} {x : ℕ} :
    v ∈ keysA (insertA d k x) ↔ v = k ∨ v ∈ keysA d := by
  induction d with
  | nil => simp [insertA, keysA]
  | cons p rest ih =>
    by_cases hp : p.1 = k
    · rw [insertA, if_pos hp, keysA_cons, keysA_cons]
      simp only [List.mem_cons]
      rw [← hp]
      tauto
    · rw [insertA, if_neg hp, keysA_cons, keysA_cons]
      simp only [List.mem_cons]
      rw [ih]
      tauto

theorem keysA_insertA_nodup {d : List (α × ℕ)} {k : α} {x : ℕ}
    (hn : (keysA d).Nodup) : (keysA (insertA d k x)).Nodup := by
  induction d with
  | nil => simp [insertA, keysA]
  | cons p rest ih =>
    rw [keysA_cons, List.nodup_cons] at hn
    by_cases hp : p.1 = k
    · rw [insertA, if_pos hp, keysA_cons, List.nodup_cons]
      exact ⟨by rw [← hp]; exact hn.1, hn.2⟩
    · rw [insertA, if_neg hp, keysA_cons, List.nodup_cons]
      refine ⟨?_, ih hn.2⟩
      rw [mem_keysA_insertA]
      rintro (he | hm)
      · exact hp he
      · exact hn.1 hm

theorem length_insertA_of_mem {d : List (α × ℕ)} {k : α} {x : ℕ}
    (h : k ∈ keysA d) : (insertA d k x).length = d.length := by
  induction d with
  | nil => simp [keysA] at h
  | cons p rest ih =>
    by_cases hp : p.1 = k
    · rw [insertA, if_pos hp]
      simp
    · rw [insertA, if_neg hp]
      rw [keysA_cons, List.mem_cons] at h
      rcases h with h | h
      · exact absurd h.symm hp
      · simp [ih h]

theorem insertA_of_not_mem {d : List (α × ℕ)} {k : α} {x : ℕ}
    (h : k ∉ keysA d) : insertA d k x = d ++ [(k, x)] := by
  induction d with
  | nil => simp [insertA]
  | cons p rest ih =>
    rw [keysA_cons, List.mem_cons] at h
    push_neg at h
    rw [insertA, if_neg (fun hc => h.1 hc.symm), ih h.2]
    simp

end AssocLemmas

/-! ### The in-sync invariant of RemovalList

After a duplicate-free construction the dict is exactly the inverse of
the chain (each surviving value maps to the identity of the node holding
it), values and identities are unique, and the dict and the chain have
the same size, so get_length counts the surviving elements.  Every
operation of the engine preserves this invariant. -/

namespace RemovalList

variable {α : Type} [DecidableEq α]

/-- Sync between the chain and the dict of a RemovalList. -/
structure InSync (rl : RemovalList α) : Prop where
  values_nodup : rl.chainValues.Nodup
  ids_nodup : rl.chainIds.Nodup
  ids_lt : ∀ p ∈ rl.chain, p.1 < rl.fresh
  dict_iff : ∀ (v : α) (id : ℕ), (v, id) ∈ rl.dict ↔ (id, v) ∈ rl.chain
  keys_nodup : (keysA rl.dict).Nodup
  len_eq : rl.dict.length = rl.chain.length

omit [DecidableEq α] in
theorem inSync_empty : InSync (empty : RemovalList α) := by
  constructor <;> simp [empty, chainValues, chainIds, keysA]

theorem chainValues_append (rl : RemovalList α) (v : α) :
    (rl.append v).chainValues = rl.chainValues ++ [v] := by
  simp [append, chainValues]

omit [DecidableEq α] in
theorem mem_chainValues {rl : RemovalList α} {v : α} :
    v ∈ rl.chainValues ↔ ∃ id, (id, v) ∈ rl.chain := by
  constructor
  · intro h
    rcases List.mem_map.mp h with ⟨p, hp, he⟩
    exact ⟨p.1, by rwa [show (p.1, v) = p from by rw [← he]]⟩
  · rintro ⟨id, h⟩
    exact List.mem_map.mpr ⟨(id, v), h, rfl⟩

omit [DecidableEq α] in
theorem InSync.mem_keys_iff {rl : RemovalList α} (h : InSync rl) {v : α} :
    v ∈ keysA rl.dict ↔ v ∈ rl.chainValues := by
  rw [mem_keysA, mem_chainValues]
  constructor
  · rintro ⟨id, hm⟩
    exact ⟨id, (h.dict_iff v id).mp hm⟩
  · rintro ⟨id, hm⟩
    exact ⟨id, (h.dict_iff v id).mpr hm⟩

theorem InSync.append {rl : RemovalList α} (h : InSync rl) {v : α}
    (hv : v ∉ rl.chainValues) : InSync (rl.append v) := by
  have hkey : v ∉ keysA rl.dict := fun hc => hv (h.mem_keys_iff.mp hc)
  have hins : insertA rl.dict v rl.fresh = rl.dict ++ [(v, rl.fresh)] :=
    insertA_of_not_mem hkey
  have hidfresh : ∀ p ∈ rl.chain, p.1 ≠ rl.fresh :=
    fun p hp => Nat.ne_of_lt (h.ids_lt p hp)
  constructor
  · rw [chainValues_append]
    rw [List.nodup_append]
    exact ⟨h.values_nodup, List.nodup_singleton v, by simpa using fun hc => hv hc⟩
  · show (chainIds ⟨rl.chain ++ [(rl.fresh, v)], _, _⟩).Nodup
    unfold chainIds
    rw [List.map_append, List.nodup_append]
    refine ⟨h.ids_nodup, List.nodup_singleton _, ?_⟩
    intro x hx
    rcases List.mem_map.mp hx with ⟨p, hp, he⟩
    simp only [List.map_cons, List.map_nil, List.mem_singleton]
    intro hc
    subst hc
    exact hidfresh p hp (by rw [he])
  · intro p hp
    show p.1 < rl.fresh + 1
    rcases List.mem_append.mp hp with hp | hp
    · exact Nat.lt_succ_of_lt (h.ids_lt p hp)
    · rcases List.mem_singleton.mp hp with rfl
      exact Nat.lt_succ_self _
  · intro w id
    show (w, id) ∈ insertA rl.dict v rl.fresh ↔ (id, w) ∈ rl.chain ++ [(rl.fresh, v)]
    rw [hins, List.mem_append, List.mem_append, h.dict_iff w id]
    simp only [List.mem_singleton, Prod.mk.injEq]
    constructor
    · rintro (hm | ⟨h1, h2⟩)
      · exact Or.inl hm
      · exact Or.inr ⟨h2, h1⟩
    · rintro (hm | ⟨h1, h2⟩)
      · exact Or.inl hm
      · exact Or.inr ⟨h2, h1⟩
  · show (keysA (insertA rl.dict v rl.fresh)).Nodup
    exact keysA_insertA_nodup h.keys_nodup
  · show (insertA rl.dict v rl.fresh).length = (rl.chain ++ [(rl.fresh, v)]).length
    rw [hins]
    simp [h.len_eq]

theorem chainValues_foldl_append (l : List α) :
    ∀ rl : RemovalList α, (l.foldl RemovalList.append rl).chainValues =
      rl.chainValues ++ l := by
  induction l with
  | nil => intro rl; simp
  | cons x rest ih =>
    intro rl
    rw [List.foldl_cons, ih, chainValues_append]
    simp

theorem chainValues_ofList (l : List α) : (ofList l).chainValues = l := by
  unfold ofList
  rw [chainValues_foldl_append]
  simp [empty, chainValues]

theorem inSync_foldl_append (l : List α) :
    ∀ rl : RemovalList α, InSync rl → (rl.chainValues ++ l).Nodup →
      InSync (l.foldl RemovalList.append rl) := by
  induction l with
  | nil => intro rl h _; simpa using h
  | cons x rest ih =>
    intro rl h hnd
    rw [List.foldl_cons]
    have hx : x ∉ rl.chainValues := by
      intro hc
      have := List.disjoint_of_nodup_append hnd
      exact this hc (List.mem_cons_self x rest)
    refine ih _ (h.append hx) ?_
    rw [chainValues_append]
    simpa using hnd

theorem inSync_ofList {l : List α} (h : l.Nodup) : InSync (ofList l) := by
  unfold ofList
  refine inSync_foldl_append l empty inSync_empty ?_
  simpa [empty, chainValues] using h

/-! ### Correctness of remove under the invariant -/

omit [DecidableEq α] in
/-- Structural decomposition of chainRemove at a present identity. -/
theorem chainRemove_decomp {chain : List (ℕ × α)} {pid : ℕ} {d : α}
    (hids : (chain.map Prod.fst).Nodup) (hmem : (pid, d) ∈ chain) :
    ∃ pre post, chain = pre ++ (pid, d) :: post ∧ pid ∉ pre.map Prod.fst ∧
      ((post = [] ∧ chainRemove chain pid = (pre, none)) ∨
       (∃ id2 w post2, post = (id2, w) :: post2 ∧
         chainRemove chain pid = (pre ++ (pid, w) :: post2, some w))) := by
  induction chain with
  | nil => simp at hmem
  | cons p rest ih =>
    obtain ⟨a, b⟩ := p
    rw [List.map_cons, List.nodup_cons] at hids
    by_cases hp : a = pid
    · subst hp
      have hpd : b = d := by
        rcases List.mem_cons.mp hmem with he | hm
        · injection he.symm
        · exact absurd (List.mem_map.mpr ⟨(a, d), hm, rfl⟩) hids.1
      subst hpd
      refine ⟨[], rest, by simp, by simp, ?_⟩
      cases rest with
      | nil => exact Or.inl ⟨rfl, by simp [chainRemove]⟩
      | cons q rest2 =>
        refine Or.inr ⟨q.1, q.2, rest2, by simp, ?_⟩
        simp [chainRemove]
    · have hm : (pid, d) ∈ rest := by
        rcases List.mem_cons.mp hmem with he | hm
        · exact absurd (congrArg Prod.fst he).symm hp
        · exact hm
      rcases ih hids.2 hm with ⟨pre, post, hchain, hpre, hcase⟩
      refine ⟨(a, b) :: pre, post, by rw [hchain]; simp, ?_, ?_⟩
      · simp only [List.map_cons, List.mem_cons]
        rintro (he | hin)
        · exact hp he.symm
        · exact hpre hin
      · have hrem : chainRemove ((a, b) :: rest) pid =
            ((a, b) :: (chainRemove rest pid).1, (chainRemove rest pid).2) := by
          simp only [chainRemove, if_neg hp]
        rcases hcase with ⟨hpost, hcr⟩ | ⟨id2, w, post2, hpost, hcr⟩
        · exact Or.inl ⟨hpost, by rw [hrem, hcr]⟩
        · exact Or.inr ⟨id2, w, post2, hpost, by rw [hrem, hcr]; simp⟩

theorem remove_of_not_mem {rl : RemovalList α} (h : InSync rl) {d : α}
    (hd : d ∉ rl.chainValues) : rl.remove d = rl := by
  have hk : d ∉ keysA rl.dict := fun hc => hd (h.mem_keys_iff.mp hc)
  unfold remove
  rw [lookupA_eq_none.mpr hk]

/-- Correctness of RemovalList.remove under the invariant: the surviving
values lose exactly the removed value, the invariant is preserved, and
the tail identity is unchanged. -/
theorem remove_spec {rl : RemovalList α} (h : InSync rl) (d : α) :
    InSync (rl.remove d) ∧ (rl.remove d).chainValues = rl.chainValues.erase d ∧
      (rl.remove d).fresh = rl.fresh := by
  cases hl : lookupA rl.dict d with
  | none =>
    have hk : d ∉ keysA rl.dict := lookupA_eq_none.mp hl
    have hd : d ∉ rl.chainValues := fun hc => hk (h.mem_keys_iff.mpr hc)
    have hrm : rl.remove d = rl := remove_of_not_mem h hd
    rw [hrm, List.erase_of_not_mem hd]
    exact ⟨h, rfl, rfl⟩
  | some pid =>
    have hdm : (d, pid) ∈ rl.dict := lookupA_mem hl
    have hcm : (pid, d) ∈ rl.chain := (h.dict_iff d pid).mp hdm
    have hdk : d ∈ keysA rl.dict := mem_keysA.mpr ⟨pid, hdm⟩
    rcases chainRemove_decomp h.ids_nodup hcm with ⟨pre, post, hchain, hpre, hcase⟩
    rcases hcase with ⟨hpost, hcr⟩ | ⟨id2, w, post2, hpost, hcr⟩
    · -- the removed value was the last surviving element
      subst hpost
      have hrm : rl.remove d = ⟨pre, eraseA rl.dict d, rl.fresh⟩ := by
        unfold remove
        rw [hl]
        simp only [hcr]
      have hv : rl.chainValues = pre.map Prod.snd ++ [d] := by
        rw [chainValues, hchain]
        simp
      have hvn := h.values_nodup
      rw [hv, List.nodup_append] at hvn
      have hdpre : d ∉ pre.map Prod.snd := fun hc => hvn.2.2 hc (List.mem_singleton.mpr rfl)
      have hvals : (RemovalList.mk pre (eraseA rl.dict d) rl.fresh).chainValues =
          rl.chainValues.erase d := by
        rw [hv, List.erase_append_right _ hdpre]
        simp [chainValues]
      refine ⟨?_, by rw [hrm]; exact hvals, by rw [hrm]⟩
      rw [hrm]
      constructor
      · rw [hvals, hv]
        rw [List.erase_append_right _ hdpre]
        simpa using hvn.1
      · show (pre.map Prod.fst).Nodup
        have := h.ids_nodup
        rw [chainIds, hchain, List.map_append] at this
        exact (List.nodup_append.mp this).1
      · intro p hp
        exact h.ids_lt p (by rw [hchain]; exact List.mem_append_left _ hp)
      · intro v id
        show (v, id) ∈ eraseA rl.dict d ↔ (id, v) ∈ pre
        rw [mem_eraseA h.keys_nodup, h.dict_iff v id, hchain]
        constructor
        · rintro ⟨hne, hm⟩
          rcases List.mem_append.mp hm with hm | hm
          · exact hm
          · exact absurd (congrArg Prod.snd (List.mem_singleton.mp hm)) hne
        · intro hm
          refine ⟨?_, List.mem_append_left _ hm⟩
          intro he
          subst he
          exact hdpre (List.mem_map_of_mem Prod.snd hm)
      · show (keysA (eraseA rl.dict d)).Nodup
        exact keysA_eraseA_nodup h.keys_nodup
      · show (eraseA rl.dict d).length = pre.length
        have h1 := length_eraseA_of_mem hdk
        have h2 := h.len_eq
        rw [hchain] at h2
        simp at h2
        omega
    · -- the successor value moves into the removed node
      subst hpost
      have hrm : rl.remove d =
          ⟨pre ++ (pid, w) :: post2, insertA (eraseA rl.dict d) w pid, rl.fresh⟩ := by
        unfold remove
        rw [hl]
        simp only [hcr]
      have hv : rl.chainValues = pre.map Prod.snd ++ d :: w :: post2.map Prod.snd := by
        rw [chainValues, hchain]
        simp
      have hvn := h.values_nodup
      rw [hv, List.nodup_append] at hvn
      have hdpre : d ∉ pre.map Prod.snd :=
        fun hc => hvn.2.2 hc (List.mem_cons_self _ _)
      have hwpre : w ∉ pre.map Prod.snd :=
        fun hc => hvn.2.2 hc (by simp)
      have hdwn := hvn.2.1
      rw [List.nodup_cons] at hdwn
      have hdw : d ≠ w := fun he => hdwn.1 (by rw [he]; simp)
      have hdpost : d ∉ post2.map Prod.snd := fun hc => hdwn.1 (by simp [hc])
      have hwn := hdwn.2
      rw [List.nodup_cons] at hwn
      have hwpost : w ∉ post2.map Prod.snd := hwn.1
      have hw2 : (id2, w) ∈ rl.chain := by
        rw [hchain]
        exact List.mem_append_right _ (by simp)
      have hwdict : (w, id2) ∈ rl.dict := (h.dict_iff w id2).mpr hw2
      have hwkey : w ∈ keysA (eraseA rl.dict d) :=
        (mem_keysA_eraseA h.keys_nodup).mpr
          ⟨fun he => hdw he.symm, mem_keysA.mpr ⟨id2, hwdict⟩⟩
      have hvals : (RemovalList.mk (pre ++ (pid, w) :: post2)
          (insertA (eraseA rl.dict d) w pid) rl.fresh).chainValues =
          rl.chainValues.erase d := by
        rw [hv, List.erase_append_right _ hdpre, List.erase_cons_head]
        simp [chainValues]
      refine ⟨?_, by rw [hrm]; exact hvals, by rw [hrm]⟩
      rw [hrm]
      constructor
      · rw [hvals, hv, List.erase_append_right _ hdpre, List.erase_cons_head]
        rw [List.nodup_append]
        exact ⟨hvn.1, hdwn.2, fun a ha hb => hvn.2.2 ha (List.mem_cons_of_mem _ hb)⟩
      · show ((pre ++ (pid, w) :: post2).map Prod.fst).Nodup
        have hidsn := h.ids_nodup
        rw [chainIds, hchain] at hidsn
        refine List.Nodup.sublist ?_ hidsn
        simp only [List.map_append, List.map_cons]
        refine List.Sublist.append (List.Sublist.refl _) ?_
        exact List.Sublist.cons₂ _ (List.sublist_cons_self _ _)
      · intro p hp
        rcases List.mem_append.mp hp with hp | hp
        · exact h.ids_lt p (by rw [hchain]; exact List.mem_append_left _ hp)
        · rcases List.mem_cons.mp hp with rfl | hp
          · have := h.ids_lt (pid, d) hcm
            simpa using this
          · refine h.ids_lt p ?_
            rw [hchain]
            refine List.mem_append_right _ ?_
            exact List.mem_cons_of_mem _ (List.mem_cons_of_mem _ hp)
      · intro v id
        show (v, id) ∈ insertA (eraseA rl.dict d) w pid ↔
          (id, v) ∈ pre ++ (pid, w) :: post2
        rw [mem_insertA (keysA_eraseA_nodup h.keys_nodup),
          mem_eraseA h.keys_nodup, h.dict_iff v id]
        constructor
        · rintro (⟨rfl, rfl⟩ | ⟨hvw, hvd, hm⟩)
          · exact List.mem_append_right _ (List.mem_cons_self _ _)
          · rw [hchain] at hm
            rcases List.mem_append.mp hm with hm | hm
            · exact List.mem_append_left _ hm
            · rcases List.mem_cons.mp hm with he | hm
              · exact absurd (congrArg Prod.snd he) hvd
              · rcases List.mem_cons.mp hm with he | hm
                · exact absurd (congrArg Prod.snd he) hvw
                · exact List.mem_append_right _ (List.mem_cons_of_mem _ hm)
        · intro hm
          rcases List.mem_append.mp hm with hm | hm
          · have hvpre : v ∈ pre.map Prod.snd := List.mem_map_of_mem Prod.snd hm
            refine Or.inr ⟨fun he => hwpre (he ▸ hvpre), fun he => hdpre (he ▸ hvpre), ?_⟩
            rw [hchain]
            exact List.mem_append_left _ hm
          · rcases List.mem_cons.mp hm with he | hm
            · have h1 : v = w := congrArg Prod.snd he
              have h2 : id = pid := congrArg Prod.fst he
              exact Or.inl ⟨h1, h2⟩
            · have hvpost : v ∈ post2.map Prod.snd := List.mem_map_of_mem Prod.snd hm
              refine Or.inr ⟨fun he => hwpost (he ▸ hvpost), fun he => hdpost (he ▸ hvpost), ?_⟩
              rw [hchain]
              refine List.mem_append_right _ ?_
              exact List.mem_cons_of_mem _ (List.mem_cons_of_mem _ hm)
      · show (keysA (insertA (eraseA rl.dict d) w pid)).Nodup
        exact keysA_insertA_nodup (keysA_eraseA_nodup h.keys_nodup)
      · show (insertA (eraseA rl.dict d) w pid).length = (pre ++ (pid, w) :: post2).length
        rw [length_insertA_of_mem hwkey]
        have h1 := length_eraseA_of_mem hdk
        have h2 := h.len_eq
        rw [hchain] at h2
        simp at h2 ⊢
        omega

theorem remove_inSync {rl : RemovalList α} (h : InSync rl) (d : α) :
    InSync (rl.remove d) := (remove_spec h d).1

theorem chainValues_remove {rl : RemovalList α} (h : InSync rl) (d : α) :
    (rl.remove d).chainValues = rl.chainValues.erase d := (remove_spec h d).2.1

theorem not_mem_remove {rl : RemovalList α} (h : InSync rl) (d : α) :
    d ∉ (rl.remove d).chainValues := by
  rw [chainValues_remove h d]
  intro hc
  rw [(h.values_nodup).mem_erase_iff] at hc
  exact hc.1 rfl

theorem mem_of_mem_remove {rl : RemovalList α} (h : InSync rl) {d x : α}
    (hx : x ∈ (rl.remove d).chainValues) : x ∈ rl.chainValues := by
  rw [chainValues_remove h d] at hx
  exact List.mem_of_mem_erase hx

end RemovalList

/-! ### choice_one_of

CumulationCache.choice_one_of walks the first get_length nodes of a
RemovalList and returns the value at the first index i whose cumulative
entry exceeds the drawn f; if the loop completes without a hit (only
possible for an empty list, since the last table entry is the exact 1
and f < 1), Python falls through and returns None. -/

/-- Scan of the zipped (cumulative entry, surviving value) pairs: the
value of the first pair whose entry exceeds f. -/
def scanChoice {α : Type} (f : ℚ) : List (ℚ × α) → Option α
  | [] => none
  | (c, v) :: rest => if f < c then some v else scanChoice f rest

/-- CumulationCache.choice_one_of, with the random draw f explicit.  In
sync, the cumulative table for get_length and the chain have the same
length, so the zip mirrors the node walk of the source. -/
def choice_one_of {α : Type} [DecidableEq α] (tau : ℕ) (r_l : RemovalList α) (f : ℚ) :
    Option α :=
  scanChoice f ((cumulationCache tau r_l.get_length).zip r_l.chainValues)

theorem scanChoice_mem {α : Type} {f : ℚ} :
    ∀ {l : List (ℚ × α)} {v : α}, scanChoice f l = some v → v ∈ l.map Prod.snd := by
  intro l
  induction l with
  | nil => intro v h; simp [scanChoice] at h
  | cons p rest ih =>
    intro v h
    obtain ⟨c, w⟩ := p
    rw [scanChoice] at h
    by_cases hc : f < c
    · rw [if_pos hc] at h
      injection h with h
      simp [h]
    · rw [if_neg hc] at h
      exact List.mem_cons_of_mem _ (ih h)

theorem scanChoice_isSome {α : Type} {f : ℚ} :
    ∀ {l : List (ℚ × α)}, (∃ p ∈ l, f < p.1) → (scanChoice f l).isSome := by
  intro l
  induction l with
  | nil => rintro ⟨p, hp, _⟩; simp at hp
  | cons p rest ih =>
    rintro ⟨q, hq, hfq⟩
    obtain ⟨c, w⟩ := p
    rw [scanChoice]
    by_cases hc : f < c
    · rw [if_pos hc]; rfl
    · rw [if_neg hc]
      rcases List.mem_cons.mp hq with rfl | hq
      · exact absurd hfq hc
      · exact ih ⟨q, hq, hfq⟩

theorem choice_one_of_mem {α : Type} [DecidableEq α] {tau : ℕ} {rl : RemovalList α}
    {f : ℚ} {d : α} (h : choice_one_of tau rl f = some d) : d ∈ rl.chainValues := by
  unfold choice_one_of at h
  have := scanChoice_mem h
  rcases List.mem_map.mp this with ⟨p, hp, he⟩
  have := List.of_mem_zip hp
  rw [← he]
  exact this.2

theorem choice_one_of_empty {α : Type} [DecidableEq α] (tau : ℕ) {rl : RemovalList α}
    (h : rl.chainValues = []) (f : ℚ) : choice_one_of tau rl f = none := by
  unfold choice_one_of
  rw [h, List.zip_nil_right]
  rfl

/-- A draw in [0, 1) on a nonempty in-sync list always hits, because the
table ends in the exact 1. -/
theorem choice_one_of_isSome {α : Type} [DecidableEq α] (tau : ℕ) {rl : RemovalList α}
    (hs : rl.InSync) (hn : 1 ≤ rl.get_length) {f : ℚ} (h1 : f < 1) :
    (choice_one_of tau rl f).isSome := by
  unfold choice_one_of
  set n := rl.get_length with hn'
  have hchain : rl.chainValues.length = n := by
    rw [RemovalList.chainValues, List.length_map, ← hs.len_eq]
    rfl
  have hcum : (cumulationCache tau n).length = n := cumulationCache_length tau n hn
  have hziplen : ((cumulationCache tau n).zip rl.chainValues).length = n := by
    rw [List.length_zip, hcum, hchain]
    exact Nat.min_self n
  refine scanChoice_isSome ?_
  have hidx : n - 1 < ((cumulationCache tau n).zip rl.chainValues).length := by omega
  refine ⟨((cumulationCache tau n).zip rl.chainValues).get ⟨n - 1, hidx⟩, List.get_mem _ _ _, ?_⟩
  have hgetzip : ((cumulationCache tau n).zip rl.chainValues).get ⟨n - 1, hidx⟩ =
      ((cumulationCache tau n).get ⟨n - 1, by omega⟩,
        rl.chainValues.get ⟨n - 1, by omega⟩) := by
    apply List.getElem_zip
  rw [hgetzip]
  have hlast : (cumulationCache tau n).get ⟨n - 1, by omega⟩ = 1 := by
    have := cumulationCache_getD_last tau n
    rwa [List.getD_eq_getElem?_getD, List.getElem?_eq_getElem (by omega),
      Option.getD_some] at this
  show f < (cumulationCache tau n).get ⟨n - 1, by omega⟩
  rw [hlast]
  exact h1

/-! ### The interleaving engine

Modelled from the spec: the Ranking result container (imported from
.ranking, outside src/) records the interleaved document sequence (with
list append and length query), the parallel rank_to_ranker_index
sequence set up by the engine, and the mutable ranker count.  The
document slots hold Option values because the engine appends the result
of choice_one_of unchecked, and that is None on an exhausted draw. -/

structure Ranking (α : Type) where
  docs : List (Option α)
  rank_to_ranker_index : List ℕ
  number_of_rankers : ℕ
deriving DecidableEq

namespace Probabilistic

variable {α : Type} [DecidableEq α]

/-- Probabilistic._advance : choose a document from
input_rankings[ranker_index] (an out-of-range index, impossible at both
call sites, is read as an empty list), append the document and the
ranker index to the output, and remove the document from every input
ranking.  Removal of None is a no-op in the source because None is
never a dict key, so only a some document triggers removals.  The
random draw f of choice_one_of is passed explicitly. -/
def advance (tau : ℕ) (input_rankings : List (RemovalList α)) (ranker_index : ℕ)
    (f : ℚ) (output_ranking : Ranking α) : List (RemovalList α) × Ranking α :=
  let ranking := input_rankings.getD ranker_index RemovalList.empty
  let document := choice_one_of tau ranking f
  let output := { output_ranking with
    docs := output_ranking.docs ++ [document],
    rank_to_ranker_index := output_ranking.rank_to_ranker_index ++ [ranker_index] }
  match document with
  | none => (input_rankings, output)
  | some d => (input_rankings.map (fun r_l => r_l.remove d), output)

/-- Loop of Probabilistic.interleave : for i in range(k), draw a ranker
index (np.random.randint(0, 2), oracle idxs), advance (with random draw
oracle floats), and return the result once k <= len(result).  The
argument rem counts the remaining iterations and i the current index;
none is the implicit None of a loop that ends without returning (k <= 0
in the source).  The source truncates the discarded rankings before
returning, which cannot affect the returned result and is omitted. -/
def interleaveLoop (tau k : ℕ) (idxs : ℕ → ℕ) (floats : ℕ → ℚ) :
    ℕ → ℕ → List (RemovalList α) → Ranking α → Option (Ranking α)
  | 0, _, _, _ => none
  | rem + 1, i, rankings, result =>
    let step := advance tau rankings (idxs i) (floats i) result
    if k ≤ step.2.docs.length then some step.2
    else interleaveLoop tau k idxs floats rem (i + 1) step.1 step.2

/-- Probabilistic.interleave : build the two RemovalLists and loop.  A
Python k <= 0 is modelled by k = 0 (range(k) is empty for both). -/
def interleave (tau k : ℕ) (a b : List α) (idxs : ℕ → ℕ) (floats : ℕ → ℚ) :
    Option (Ranking α) :=
  interleaveLoop tau k idxs floats k 0
    [RemovalList.ofList a, RemovalList.ofList b]
    ⟨[], [], 2⟩

/-- Inner while loop of Probabilistic.multileave : ranker_indexes.pop()
takes indices from the end of the shuffled list, so the argument here is
the pop-order (reversed) index list.  cnt numbers the advances for the
floats oracle.  The result is either the final Ranking (inr, returned
mid-round once k <= len(result)) or the state at the end of a full round
(inl). -/
def multiRound (tau k : ℕ) (floats : ℕ → ℚ) :
    List ℕ → ℕ → List (RemovalList α) → Ranking α →
      (ℕ × List (RemovalList α) × Ranking α) ⊕ Ranking α
  | [], cnt, rankings, result => Sum.inl (cnt, rankings, result)
  | idx :: rest, cnt, rankings, result =>
    let step := advance tau rankings idx (floats cnt) result
    if k ≤ step.2.docs.length then Sum.inr step.2
    else multiRound tau k floats rest (cnt + 1) step.1 step.2

/-- Outer while True loop of Probabilistic.multileave : each round
shuffles the full index list range(len(rankings)) (oracle shuffle,
keyed by the round number) and runs the inner loop.  The source loop
has no bound; the fuel argument only models divergence: none means the
fuel ran out, and multileave below hands enough fuel that none is
reachable exactly when the source loops forever (zero rankers). -/
def multileaveLoop (tau k : ℕ) (shuffle : ℕ → List ℕ → List ℕ) (floats : ℕ → ℚ) :
    ℕ → ℕ → ℕ → List (RemovalList α) → Ranking α → Option (Ranking α)
  | 0, _, _, _, _ => none
  | fuel + 1, round, cnt, rankings, result =>
    let ranker_indexes := shuffle round (List.range rankings.length)
    match multiRound tau k floats ranker_indexes.reverse cnt rankings result with
    | Sum.inr final => some final
    | Sum.inl (cnt', rankings', result') =>
      multileaveLoop tau k shuffle floats fuel (round + 1) cnt' rankings' result'

/-- Probabilistic.multileave : build one RemovalList per input list and
run rounds until the result reaches length k.  Each advance appends one
entry, so k + 1 rounds always suffice when there is at least one
ranker; with zero rankers the source spins forever and the model
returns none. -/
def multileave (tau k : ℕ) (lists : List (List α))
    (shuffle : ℕ → List ℕ → List ℕ) (floats : ℕ → ℚ) : Option (Ranking α) :=
  multileaveLoop tau k shuffle floats (k + 1) 0 0
    (lists.map RemovalList.ofList)
    ⟨[], [], lists.length⟩

/-- Maximum remaining surviving length over the input sequences, the
quantity claim C7 speaks about. -/
def maxLen (rankings : List (RemovalList α)) : ℕ :=
  (rankings.map RemovalList.get_length).foldr max 0

/-! ### Shape lemmas for advance and the loops -/

theorem advance_snd (tau : ℕ) (rankings : List (RemovalList α)) (i : ℕ) (f : ℚ)
    (result : Ranking α) :
    (advance tau rankings i f result).2 =
      ⟨result.docs ++ [choice_one_of tau (rankings.getD i RemovalList.empty) f],
        result.rank_to_ranker_index ++ [i], result.number_of_rankers⟩ := by
  unfold advance
  cases hc : choice_one_of tau (rankings.getD i RemovalList.empty) f <;>
    simp only [hc]

theorem advance_docs_length (tau : ℕ) (rankings : List (RemovalList α)) (i : ℕ)
    (f : ℚ) (result : Ranking α) :
    (advance tau rankings i f result).2.docs.length = result.docs.length + 1 := by
  rw [advance_snd]
  simp

theorem advance_fst_length (tau : ℕ) (rankings : List (RemovalList α)) (i : ℕ)
    (f : ℚ) (result : Ranking α) :
    (advance tau rankings i f result).1.length = rankings.length := by
  unfold advance
  cases hc : choice_one_of tau (rankings.getD i RemovalList.empty) f <;>
    (simp only [hc]; try simp)

/-- The interleave loop with iterations left always returns, and the
returned result has exactly k documents and k ranker indices: every
advance appends exactly one entry, and the loop stops exactly when
length k is reached. -/
theorem interleaveLoop_total (tau k : ℕ) (idxs : ℕ → ℕ) (floats : ℕ → ℚ) :
    ∀ (rem i : ℕ) (rankings : List (RemovalList α)) (result : Ranking α),
      1 ≤ rem → result.docs.length + rem = k →
      ∃ r, interleaveLoop tau k idxs floats rem i rankings result = some r ∧
        r.docs.length = k ∧
        r.rank_to_ranker_index.length =
          result.rank_to_ranker_index.length + rem ∧
        r.number_of_rankers = result.number_of_rankers ∧
        (∃ ext : List (Option α), r.docs = result.docs ++ ext) := by
  intro rem
  induction rem with
  | zero => intro i rankings result h; omega
  | succ rem ih =>
    intro i rankings result _ hlen
    rw [interleaveLoop]
    have hstep := advance_snd tau rankings (idxs i) (floats i) result
    have hstep1 := advance_docs_length tau rankings (idxs i) (floats i) result
    by_cases hk : k ≤ (advance tau rankings (idxs i) (floats i) result).2.docs.length
    · rw [if_pos hk]
      refine ⟨_, rfl, ?_, ?_, ?_, ?_⟩
      · rw [advance_docs_length]
        omega
      · rw [hstep]
        simp
        omega
      · rw [hstep]
      · rw [hstep]
        exact ⟨_, rfl⟩
    · rw [if_neg hk]
      have hrem : 1 ≤ rem := by
        rw [advance_docs_length] at hk
        omega
      have hlen' : (advance tau rankings (idxs i) (floats i) result).2.docs.length + rem = k := by
        rw [advance_docs_length]
        omega
      obtain ⟨r, hr, h1, h2, h3, ext, h4⟩ := ih (i + 1) _ _ hrem hlen'
      refine ⟨r, hr, h1, ?_, ?_, ?_⟩
      · rw [h2, hstep]
        simp
        omega
      · rw [h3, hstep]
      · rw [hstep] at h4
        refine ⟨choice_one_of tau (rankings.getD (idxs i) RemovalList.empty) (floats i) :: ext, ?_⟩
        simpa using h4

/-! ### The no-duplicates invariant (claim C2) -/

/-- Documents already emitted are absent from every surviving sequence,
every sequence is in sync, and the emitted documents are distinct. -/
def GoodState (rankings : List (RemovalList α)) (result : Ranking α) : Prop :=
  (∀ rl ∈ rankings, rl.InSync) ∧
  (∀ d : α, some d ∈ result.docs → ∀ rl ∈ rankings, d ∉ rl.chainValues) ∧
  (result.docs.filterMap id).Nodup

theorem mem_filterMap_id {β : Type} {l : List (Option β)} {b : β} :
    b ∈ l.filterMap id ↔ some b ∈ l := by
  rw [List.mem_filterMap]
  constructor
  · rintro ⟨a, ha, he⟩
    rwa [show a = some b from he] at ha
  · intro h
    exact ⟨some b, h, rfl⟩

/-- Every advance preserves the invariant: the chosen document comes
from a surviving sequence (hence was never emitted before) and is then
removed from every sequence. -/
theorem advance_good (tau : ℕ) {rankings : List (RemovalList α)} {result : Ranking α}
    (h : GoodState rankings result) (i : ℕ) (f : ℚ) :
    GoodState (advance tau rankings i f result).1 (advance tau rankings i f result).2 := by
  obtain ⟨hsync, hgone, hnodup⟩ := h
  cases hc : choice_one_of tau (rankings.getD i RemovalList.empty) f with
  | none =>
    have hfst : (advance tau rankings i f result).1 = rankings := by
      simp only [advance, hc]
    rw [hfst, advance_snd, hc]
    refine ⟨hsync, ?_, ?_⟩
    · intro d hd
      rcases List.mem_append.mp hd with hd | hd
      · exact hgone d hd
      · simp at hd
    · simpa using hnodup
  | some d =>
    have hfst : (advance tau rankings i f result).1 =
        rankings.map (fun r_l => r_l.remove d) := by
      simp only [advance, hc]
    have hdmem : d ∈ (rankings.getD i RemovalList.empty).chainValues :=
      choice_one_of_mem hc
    have hdrawn : rankings.getD i RemovalList.empty ∈ rankings := by
      by_cases hi : i < rankings.length
      · rw [List.getD_eq_getElem _ _ hi]
        exact List.getElem_mem _
      · rw [List.getD_eq_default _ _ (by omega)] at hdmem
        simp [RemovalList.empty, RemovalList.chainValues] at hdmem
    have hnew : some d ∉ result.docs := by
      intro hcontra
      exact hgone d hcontra _ hdrawn hdmem
    rw [hfst, advance_snd, hc]
    refine ⟨?_, ?_, ?_⟩
    · intro rl' hrl'
      rcases List.mem_map.mp hrl' with ⟨rl, hrl, he⟩
      rw [← he]
      exact RemovalList.remove_inSync (hsync rl hrl) d
    · intro e he rl' hrl'
      rcases List.mem_map.mp hrl' with ⟨rl, hrl, herl⟩
      rcases List.mem_append.mp he with he | he
      · rw [← herl]
        intro hcontra
        exact hgone e he rl hrl (RemovalList.mem_of_mem_remove (hsync rl hrl) hcontra)
      · have he' : e = d := by simpa using he
        rw [he', ← herl]
        exact RemovalList.not_mem_remove (hsync rl hrl) d
    · rw [List.filterMap_append]
      simp only [List.filterMap_cons, id, List.filterMap_nil]
      rw [List.nodup_append]
      refine ⟨hnodup, List.nodup_singleton d, ?_⟩
      intro x hx hx'
      rcases List.mem_singleton.mp hx' with rfl
      exact hnew (mem_filterMap_id.mp hx)

theorem interleaveLoop_nodup (tau k : ℕ) (idxs : ℕ → ℕ) (floats : ℕ → ℚ) :
    ∀ (rem i : ℕ) (rankings : List (RemovalList α)) (result : Ranking α),
      GoodState rankings result →
      ∀ r, interleaveLoop tau k idxs floats rem i rankings result = some r →
        (r.docs.filterMap id).Nodup := by
  intro rem
  induction rem with
  | zero =>
    intro i rankings result _ r hr
    simp [interleaveLoop] at hr
  | succ rem ih =>
    intro i rankings result h r hr
    rw [interleaveLoop] at hr
    have hgood := advance_good tau h (idxs i) (floats i)
    by_cases hk : k ≤ (advance tau rankings (idxs i) (floats i) result).2.docs.length
    · rw [if_pos hk] at hr
      injection hr with hr
      rw [← hr]
      exact hgood.2.2
    · rw [if_neg hk] at hr
      exact ih (i + 1) _ _ hgood r hr

theorem multiRound_good (tau k : ℕ) (floats : ℕ → ℚ) :
    ∀ (idxs : List ℕ) (cnt : ℕ) (rankings : List (RemovalList α)) (result : Ranking α),
      GoodState rankings result →
      (∀ cnt' rankings' result',
        multiRound tau k floats idxs cnt rankings result = Sum.inl (cnt', rankings', result') →
          GoodState rankings' result') ∧
      (∀ final, multiRound tau k floats idxs cnt rankings result = Sum.inr final →
        (final.docs.filterMap id).Nodup) := by
  intro idxs
  induction idxs with
  | nil =>
    intro cnt rankings result h
    constructor
    · intro cnt' rankings' result' he
      rw [multiRound] at he
      injection he with he
      have h2 : rankings = rankings' := congrArg (fun p => p.2.1) he
      have h3 : result = result' := congrArg (fun p => p.2.2) he
      rw [← h2, ← h3]
      exact h
    · intro final he
      rw [multiRound] at he
      exact absurd he (by simp)
  | cons idx rest ih =>
    intro cnt rankings result h
    have hgood := advance_good tau h idx (floats cnt)
    constructor
    · intro cnt' rankings' result' he
      rw [multiRound] at he
      by_cases hk : k ≤ (advance tau rankings idx (floats cnt) result).2.docs.length
      · rw [if_pos hk] at he
        exact absurd he (by simp)
      · rw [if_neg hk] at he
        exact (ih _ _ _ hgood).1 cnt' rankings' result' he
    · intro final he
      rw [multiRound] at he
      by_cases hk : k ≤ (advance tau rankings idx (floats cnt) result).2.docs.length
      · rw [if_pos hk] at he
        injection he with he
        rw [← he]
        exact hgood.2.2
      · rw [if_neg hk] at he
        exact (ih _ _ _ hgood).2 final he

/-! ### Quantitative round lemmas for multileave -/

/-- A round that completes without returning performed one advance per
popped index, so the result grew by exactly the round length, the
ranker-index trace extends by the popped indices in order, and (for a
nonempty round) the length is still below k. -/
theorem multiRound_inl (tau k : ℕ) (floats : ℕ → ℚ) :
    ∀ (idxs : List ℕ) (cnt : ℕ) (rankings : List (RemovalList α)) (result : Ranking α)
      (cnt' : ℕ) (rankings' : List (RemovalList α)) (result' : Ranking α),
      multiRound tau k floats idxs cnt rankings result = Sum.inl (cnt', rankings', result') →
        result'.docs.length = result.docs.length + idxs.length ∧
        result'.rank_to_ranker_index = result.rank_to_ranker_index ++ idxs ∧
        rankings'.length = rankings.length ∧
        result'.number_of_rankers = result.number_of_rankers ∧
        (idxs = [] ∨ result'.docs.length < k) := by
  intro idxs
  induction idxs with
  | nil =>
    intro cnt rankings result cnt' rankings' result' he
    rw [multiRound] at he
    injection he with he
    have h2 : rankings = rankings' := congrArg (fun p => p.2.1) he
    have h3 : result = result' := congrArg (fun p => p.2.2) he
    rw [← h2, ← h3]
    simp
  | cons idx rest ih =>
    intro cnt rankings result cnt' rankings' result' he
    rw [multiRound] at he
    have hstep := advance_snd tau rankings idx (floats cnt) result
    have hstep1 := advance_docs_length tau rankings idx (floats cnt) result
    by_cases hk : k ≤ (advance tau rankings idx (floats cnt) result).2.docs.length
    · rw [if_pos hk] at he
      exact absurd he (by simp)
    · rw [if_neg hk] at he
      obtain ⟨h1, h2, h3, h4, h5⟩ := ih _ _ _ _ _ _ he
      refine ⟨by rw [h1, hstep1]; simp; omega, ?_, ?_, ?_, ?_⟩
      · rw [h2, hstep]
        simp
      · rw [h3, advance_fst_length]
      · rw [h4, hstep]
      · refine Or.inr ?_
        rcases h5 with h5 | h5
        · have hr0 : rest.length = 0 := by rw [h5]; rfl
          omega
        · exact h5

/-- A round that starts below k and has enough indices to reach k
returns mid-round with exactly k documents, the trace extended by the
indices popped up to that point. -/
theorem multiRound_inr_of_le (tau k : ℕ) (floats : ℕ → ℚ) :
    ∀ (idxs : List ℕ) (cnt : ℕ) (rankings : List (RemovalList α)) (result : Ranking α),
      result.docs.length < k → k ≤ result.docs.length + idxs.length →
      ∃ final, multiRound tau k floats idxs cnt rankings result = Sum.inr final ∧
        final.docs.length = k ∧
        final.rank_to_ranker_index =
          result.rank_to_ranker_index ++ idxs.take (k - result.docs.length) ∧
        final.number_of_rankers = result.number_of_rankers := by
  intro idxs
  induction idxs with
  | nil =>
    intro cnt rankings result hlt hle
    simp at hle
    omega
  | cons idx rest ih =>
    intro cnt rankings result hlt hle
    rw [multiRound]
    have hstep := advance_snd tau rankings idx (floats cnt) result
    have hstep1 := advance_docs_length tau rankings idx (floats cnt) result
    by_cases hk : k ≤ (advance tau rankings idx (floats cnt) result).2.docs.length
    · rw [if_pos hk]
      refine ⟨_, rfl, ?_, ?_, ?_⟩
      · omega
      · rw [hstep]
        have htake : k - result.docs.length = 1 := by omega
        rw [htake]
        simp
      · rw [hstep]
    · rw [if_neg hk]
      have hlt' : (advance tau rankings idx (floats cnt) result).2.docs.length < k := by omega
      have hle' : k ≤ (advance tau rankings idx (floats cnt) result).2.docs.length +
          rest.length := by
        simp at hle
        omega
      obtain ⟨final, hf, h1, h2, h3⟩ := ih (cnt + 1) _ _ hlt' hle'
      refine ⟨final, hf, h1, ?_, ?_⟩
      · rw [h2, hstep]
        have htake : k - result.docs.length = (k - (result.docs.length + 1)) + 1 := by omega
        rw [htake]
        simp [hstep1]
      · rw [h3, hstep]

/-- A mid-round return needs enough indices to reach k. -/
theorem multiRound_inr_le (tau k : ℕ) (floats : ℕ → ℚ) :
    ∀ (idxs : List ℕ) (cnt : ℕ) (rankings : List (RemovalList α)) (result : Ranking α)
      (final : Ranking α),
      multiRound tau k floats idxs cnt rankings result = Sum.inr final →
        k ≤ result.docs.length + idxs.length := by
  intro idxs
  induction idxs with
  | nil =>
    intro cnt rankings result final he
    rw [multiRound] at he
    exact absurd he (by simp)
  | cons idx rest ih =>
    intro cnt rankings result final he
    rw [multiRound] at he
    have hstep1 := advance_docs_length tau rankings idx (floats cnt) result
    by_cases hk : k ≤ (advance tau rankings idx (floats cnt) result).2.docs.length
    · simp
      omega
    · rw [if_neg hk] at he
      have := ih _ _ _ _ he
      rw [hstep1] at this
      simp
      omega

/-- The trace only ever grows, also across a mid-round return. -/
theorem multiRound_inr_ext (tau k : ℕ) (floats : ℕ → ℚ) :
    ∀ (idxs : List ℕ) (cnt : ℕ) (rankings : List (RemovalList α)) (result : Ranking α)
      (final : Ranking α),
      multiRound tau k floats idxs cnt rankings result = Sum.inr final →
        ∃ ext, final.rank_to_ranker_index = result.rank_to_ranker_index ++ ext := by
  intro idxs
  induction idxs with
  | nil =>
    intro cnt rankings result final he
    rw [multiRound] at he
    exact absurd he (by simp)
  | cons idx rest ih =>
    intro cnt rankings result final he
    rw [multiRound] at he
    have hstep := advance_snd tau rankings idx (floats cnt) result
    by_cases hk : k ≤ (advance tau rankings idx (floats cnt) result).2.docs.length
    · rw [if_pos hk] at he
      injection he with he
      rw [← he, hstep]
      exact ⟨[idx], rfl⟩
    · rw [if_neg hk] at he
      obtain ⟨ext, hext⟩ := ih _ _ _ _ he
      rw [hext, hstep]
      exact ⟨idx :: ext, by simp⟩

theorem multileaveLoop_ext (tau k : ℕ) (shuffle : ℕ → List ℕ → List ℕ)
    (floats : ℕ → ℚ) :
    ∀ (fuel round cnt : ℕ) (rankings : List (RemovalList α)) (result : Ranking α)
      (final : Ranking α),
      multileaveLoop tau k shuffle floats fuel round cnt rankings result = some final →
        ∃ ext, final.rank_to_ranker_index = result.rank_to_ranker_index ++ ext := by
  intro fuel
  induction fuel with
  | zero =>
    intro round cnt rankings result final he
    simp [multileaveLoop] at he
  | succ fuel ih =>
    intro round cnt rankings result final he
    rw [multileaveLoop] at he
    cases hm : multiRound tau k floats
        (shuffle round (List.range rankings.length)).reverse cnt rankings result with
    | inr fin =>
      rw [hm] at he
      injection he with he
      obtain ⟨ext, hext⟩ := multiRound_inr_ext tau k floats _ _ _ _ _ hm
      exact ⟨ext, by rw [← he, hext]⟩
    | inl state =>
      obtain ⟨cnt', rankings', result'⟩ := state
      rw [hm] at he
      obtain ⟨_, h2, _, _, _⟩ := multiRound_inl tau k floats _ _ _ _ _ _ _ hm
      obtain ⟨ext, hext⟩ := ih _ _ _ _ _ he
      exact ⟨(shuffle round (List.range rankings.length)).reverse ++ ext,
        by rw [hext, h2]; simp⟩

/-- With at least one ranker, enough fuel, and a round length below the
remaining need, the loop always returns: every full round of n rankers
adds n documents. -/
theorem multileaveLoop_isSome (tau k : ℕ) (shuffle : ℕ → List ℕ → List ℕ)
    (floats : ℕ → ℚ) (hsh : ∀ r l, (shuffle r l).Perm l) :
    ∀ (fuel round cnt : ℕ) (rankings : List (RemovalList α)) (result : Ranking α),
      1 ≤ rankings.length →
      result.docs.length < k ∨ k ≤ result.docs.length + 1 →
      k ≤ result.docs.length + fuel * rankings.length →
      1 ≤ fuel →
      ∃ final, multileaveLoop tau k shuffle floats fuel round cnt rankings result =
        some final := by
  intro fuel
  induction fuel with
  | zero => intro _ _ _ _ _ _ _ hfuel; omega
  | succ fuel ih =>
    intro round cnt rankings result hn _ hbound _
    rw [multileaveLoop]
    have hlen : (shuffle round (List.range rankings.length)).reverse.length =
        rankings.length := by
      rw [List.length_reverse, (hsh round _).length_eq, List.length_range]
    cases hm : multiRound tau k floats
        (shuffle round (List.range rankings.length)).reverse cnt rankings result with
    | inr fin =>
      exact ⟨fin, rfl⟩
    | inl state =>
      obtain ⟨cnt', rankings', result'⟩ := state
      obtain ⟨h1, _, h3, _, h5⟩ := multiRound_inl tau k floats _ _ _ _ _ _ _ hm
      have hne : (shuffle round (List.range rankings.length)).reverse ≠ [] := by
        intro hc
        rw [hc] at hlen
        simp at hlen
        omega
      have hlt : result'.docs.length < k := by
        rcases h5 with h5 | h5
        · exact absurd h5 hne
        · exact h5
      have hfuel1 : 1 ≤ fuel := by
        by_contra hc
        have : fuel = 0 := by omega
        subst this
        rw [h1, hlen] at hlt
        simp at hbound
        omega
      refine ih (round + 1) cnt' rankings' result' (by omega) (Or.inl hlt) ?_ hfuel1
      rw [h1, hlen, h3]
      have : (fuel + 1) * rankings.length = rankings.length + fuel * rankings.length := by
        ring
      rw [this] at hbound
      omega

theorem multileaveLoop_nodup (tau k : ℕ) (shuffle : ℕ → List ℕ → List ℕ)
    (floats : ℕ → ℚ) :
    ∀ (fuel round cnt : ℕ) (rankings : List (RemovalList α)) (result : Ranking α),
      GoodState rankings result →
      ∀ final, multileaveLoop tau k shuffle floats fuel round cnt rankings result =
        some final → (final.docs.filterMap id).Nodup := by
  intro fuel
  induction fuel with
  | zero =>
    intro round cnt rankings result _ final he
    simp [multileaveLoop] at he
  | succ fuel ih =>
    intro round cnt rankings result h final he
    rw [multileaveLoop] at he
    cases hm : multiRound tau k floats
        (shuffle round (List.range rankings.length)).reverse cnt rankings result with
    | inr fin =>
      rw [hm] at he
      injection he with he
      rw [← he]
      exact (multiRound_good tau k floats _ _ _ _ h).2 fin hm
    | inl state =>
      obtain ⟨cnt', rankings', result'⟩ := state
      rw [hm] at he
      exact ih _ _ _ _ ((multiRound_good tau k floats _ _ _ _ h).1 _ _ _ hm) final he

end Probabilistic

/-! ### Auxiliary facts for the claim theorems -/

theorem keysA_foldl_append {α : Type} [DecidableEq α] :
    ∀ (l : List α) (rl : RemovalList α), (keysA rl.dict).Nodup →
      (keysA (l.foldl RemovalList.append rl).dict).Nodup ∧
      (∀ v, v ∈ keysA (l.foldl RemovalList.append rl).dict ↔
        v ∈ keysA rl.dict ∨ v ∈ l) := by
  intro l
  induction l with
  | nil => intro rl h; exact ⟨h, fun v => by simp⟩
  | cons x rest ih =>
    intro rl h
    rw [List.foldl_cons]
    obtain ⟨h1, h2⟩ := ih (rl.append x) (keysA_insertA_nodup h)
    refine ⟨h1, ?_⟩
    intro v
    rw [h2]
    show v ∈ keysA (insertA rl.dict x rl.fresh) ∨ v ∈ rest ↔ _
    rw [mem_keysA_insertA]
    simp only [List.mem_cons]
    tauto

/-- The dict deduplicates: get_length counts the distinct appended
values even when the construction list has duplicates. -/
theorem get_length_ofList {α : Type} [DecidableEq α] (l : List α) :
    (RemovalList.ofList l).get_length = l.dedup.length := by
  obtain ⟨hnd, hmem⟩ := keysA_foldl_append l RemovalList.empty (by simp [RemovalList.empty, keysA])
  have hnd' : (keysA (RemovalList.ofList l).dict).Nodup := hnd
  have hmem' : ∀ v, v ∈ keysA (RemovalList.ofList l).dict ↔ v ∈ l := by
    intro v
    rw [RemovalList.ofList, hmem]
    simp [RemovalList.empty, keysA]
  have hlen : (RemovalList.ofList l).get_length = (keysA (RemovalList.ofList l).dict).length := by
    rw [RemovalList.get_length, keysA, List.length_map]
  rw [hlen, ← List.toFinset_card_of_nodup hnd', ← List.toFinset_card_of_nodup l.nodup_dedup]
  congr 1
  ext v
  rw [List.mem_toFinset, List.mem_toFinset, hmem', List.mem_dedup]

namespace Probabilistic

/-- Zero rankers: every round shuffles the empty index list, performs no
advance, and never returns — the fuel-indexed loop yields none for any
fuel, modelling the divergence of the source. -/
theorem multileaveLoop_nil {α : Type} [DecidableEq α] (tau k : ℕ)
    (shuffle : ℕ → List ℕ → List ℕ) (floats : ℕ → ℚ)
    (hsh : ∀ r l, (shuffle r l).Perm l) :
    ∀ (fuel round cnt : ℕ) (result : Ranking α),
      multileaveLoop tau k shuffle floats fuel round cnt [] result = none := by
  intro fuel
  induction fuel with
  | zero => intro round cnt result; rfl
  | succ fuel ih =>
    intro round cnt result
    rw [multileaveLoop]
    have hempty : shuffle round (List.range ([] : List (RemovalList α)).length) = [] := by
      have := hsh round (List.range ([] : List (RemovalList α)).length)
      simpa using this.eq_nil
    rw [hempty]
    show multileaveLoop tau k shuffle floats fuel (round + 1) cnt [] result = none
    exact ih (round + 1) cnt result

theorem getD_replicate_zero (R i : ℕ) : (List.replicate R (0 : ℕ)).getD i 0 = 0 := by
  rw [List.getD_eq_getElem?_getD, List.getElem?_replicate]
  by_cases h : i < R
  · rw [if_pos h]
    rfl
  · rw [if_neg h]
    rfl

end Probabilistic

/-! ### evaluate

Probabilistic.evaluate tallies clicks through
ranking.rank_to_ranker_index and emits one (winner, loser) pair per
unordered ranker pair with differing counts.  Python list indexing
raises IndexError out of range but lets negative indices wrap, which the
embedding reproduces; an unchecked exception is embedded as none. -/

/-- Python list subscription l[d] for an int d: indices in [0, len)
directly, indices in [-len, 0) from the end, IndexError otherwise. -/
def pyIndex {β : Type} (l : List β) (d : ℤ) : Option β :=
  if 0 ≤ d ∧ d < (l.length : ℤ) then l.get? d.toNat
  else if -(l.length : ℤ) ≤ d ∧ d < 0 then l.get? ((l.length : ℤ) + d).toNat
  else none

namespace Probabilistic

/-- Tally loop of Probabilistic.evaluate :
counts[rank_to_ranker_index[d]] += 1 for every click d; a failing
subscription (click position or ranker index out of range) raises. -/
def tallyClicks (r2r : List ℕ) : List ℕ → List ℤ → Option (List ℕ)
  | counts, [] => some counts
  | counts, d :: rest =>
    match pyIndex r2r d with
    | none => none
    | some i =>
      if h : i < counts.length then
        tallyClicks r2r (counts.set i (counts.get ⟨i, h⟩ + 1)) rest
      else none

/-- Body of the double loop of Probabilistic.evaluate for one ordered
index pair i < j. -/
def pairCmp (counts : List ℕ) (i j : ℕ) : Option (ℕ × ℕ) :=
  if counts.getD j 0 < counts.getD i 0 then some (i, j)
  else if counts.getD i 0 < counts.getD j 0 then some (j, i)
  else none

/-- Double loop of Probabilistic.evaluate : for i in range(R), for j in
range(i+1, R), append the (winner, loser) pair when counts differ. -/
def pairsOf (counts : List ℕ) : List (ℕ × ℕ) :=
  (List.range counts.length).flatMap (fun i =>
    (List.range' (i + 1) (counts.length - (i + 1))).filterMap (pairCmp counts i))

/-- Probabilistic.evaluate : tally clicks into one counter per ranker,
then compare all unordered ranker pairs. -/
def evaluate {α : Type} (ranking : Ranking α) (clicks : List ℤ) :
    Option (List (ℕ × ℕ)) :=
  (tallyClicks ranking.rank_to_ranker_index
    (List.replicate ranking.number_of_rankers 0) clicks).map pairsOf

/-- Specification-side tally: the number of clicks whose position maps
to ranker i through the position-to-ranker sequence. -/
def clickCount (r2r : List ℕ) (clicks : List ℤ) (i : ℕ) : ℕ :=
  clicks.countP (fun d => pyIndex r2r d == some i)

theorem clickCount_nil (r2r : List ℕ) (i : ℕ) : clickCount r2r [] i = 0 := rfl

theorem tallyClicks_spec (r2r : List ℕ) :
    ∀ (clicks : List ℤ) (counts c : List ℕ),
      tallyClicks r2r counts clicks = some c →
      c.length = counts.length ∧
      ∀ i, i < counts.length →
        c.getD i 0 = counts.getD i 0 + clickCount r2r clicks i := by
  intro clicks
  induction clicks with
  | nil =>
    intro counts c h
    rw [tallyClicks] at h
    injection h with h
    rw [← h]
    exact ⟨rfl, fun i _ => by simp [clickCount_nil]⟩
  | cons d rest ih =>
    intro counts c h
    rw [tallyClicks] at h
    cases hp : pyIndex r2r d with
    | none => rw [hp] at h; exact absurd h (by simp)
    | some j =>
      rw [hp] at h
      have h' : (if hlt : j < counts.length then
          tallyClicks r2r (counts.set j (counts.get ⟨j, hlt⟩ + 1)) rest
        else none) = some c := h
      by_cases hj : j < counts.length
      · rw [dif_pos hj] at h'
        obtain ⟨hlen, hval⟩ := ih _ _ h'
        rw [List.length_set] at hlen
        refine ⟨hlen, ?_⟩
        intro i hi
        have hset : i < (counts.set j (counts.get ⟨j, hj⟩ + 1)).length := by
          rw [List.length_set]
          exact hi
        have := hval i (by rw [List.length_set]; exact hi)
        rw [this]
        have hcnt : clickCount r2r (d :: rest) i =
            clickCount r2r rest i + (if pyIndex r2r d == some i then 1 else 0) := by
          unfold clickCount
          rw [List.countP_cons]
        rw [hcnt, hp]
        by_cases hij : j = i
        · subst hij
          rw [List.getD_eq_getElem _ _ hset, List.getElem_set_self,
            List.getD_eq_getElem _ _ hj]
          simp [List.get_eq_getElem]
          omega
        · rw [List.getD_eq_getElem _ _ hset, List.getD_eq_getElem _ _ hi,
            List.getElem_set_ne hij]
          simp [beq_iff_eq, hij]
      · rw [dif_neg hj] at h'
        exact absurd h' (by simp)

theorem pairCmp_cases {counts : List ℕ} {i j : ℕ} {p : ℕ × ℕ}
    (h : pairCmp counts i j = some p) :
    (p = (i, j) ∧ counts.getD j 0 < counts.getD i 0) ∨
    (p = (j, i) ∧ counts.getD i 0 < counts.getD j 0) := by
  unfold pairCmp at h
  by_cases h1 : counts.getD j 0 < counts.getD i 0
  · rw [if_pos h1] at h
    injection h with h
    exact Or.inl ⟨h.symm, h1⟩
  · rw [if_neg h1] at h
    by_cases h2 : counts.getD i 0 < counts.getD j 0
    · rw [if_pos h2] at h
      injection h with h
      exact Or.inr ⟨h.symm, h2⟩
    · rw [if_neg h2] at h
      exact absurd h (by simp)

/-- Membership in the pair list: the winner of an unordered pair is
listed first exactly when its count is strictly larger. -/
theorem mem_pairsOf {counts : List ℕ} {x y : ℕ} :
    (x, y) ∈ pairsOf counts ↔
      ((x < y ∧ y < counts.length) ∨ (y < x ∧ x < counts.length)) ∧
        counts.getD y 0 < counts.getD x 0 := by
  unfold pairsOf
  rw [List.mem_flatMap]
  constructor
  · rintro ⟨i, hi, hmem⟩
    rw [List.mem_range] at hi
    rw [List.mem_filterMap] at hmem
    obtain ⟨j, hj, hf⟩ := hmem
    rw [List.mem_range'_1] at hj
    have hjR : j < counts.length := by omega
    rcases pairCmp_cases hf with ⟨he, hc⟩ | ⟨he, hc⟩
    · have hx : x = i := congrArg Prod.fst he
      have hy : y = j := congrArg Prod.snd he
      subst hx hy
      exact ⟨Or.inl ⟨by omega, hjR⟩, hc⟩
    · have hx : x = j := congrArg Prod.fst he
      have hy : y = i := congrArg Prod.snd he
      subst hx hy
      exact ⟨Or.inr ⟨by omega, hjR⟩, hc⟩
  · rintro ⟨hord | hord, hc⟩
    · refine ⟨x, List.mem_range.mpr (by omega), ?_⟩
      rw [List.mem_filterMap]
      refine ⟨y, List.mem_range'_1.mpr ⟨by omega, by omega⟩, ?_⟩
      unfold pairCmp
      rw [if_pos hc]
    · refine ⟨y, List.mem_range.mpr (by omega), ?_⟩
      rw [List.mem_filterMap]
      refine ⟨x, List.mem_range'_1.mpr ⟨by omega, by omega⟩, ?_⟩
      unfold pairCmp
      rw [if_neg (by omega), if_pos hc]

theorem pairCmp_min_max {counts : List ℕ} {i j : ℕ} {p : ℕ × ℕ} (hij : i < j)
    (h : pairCmp counts i j = some p) :
    min p.1 p.2 = i ∧ max p.1 p.2 = j := by
  rcases pairCmp_cases h with ⟨he, _⟩ | ⟨he, _⟩ <;> subst he <;> constructor <;>
    simp [Nat.min_def, Nat.max_def] <;> omega

/-- The emitted pairs are grouped by the smaller index in ascending
order, and each unordered pair occurs at most once. -/
theorem pairsOf_sorted_nodup (counts : List ℕ) :
    ((pairsOf counts).map (fun p => min p.1 p.2)).Sorted (· ≤ ·) ∧
    ((pairsOf counts).map (fun p => (min p.1 p.2, max p.1 p.2))).Nodup := by
  have hblock : ∀ i, ∀ p ∈ (List.range' (i + 1) (counts.length - (i + 1))).filterMap
      (pairCmp counts i), min p.1 p.2 = i ∧ i < max p.1 p.2 ∧
        max p.1 p.2 < counts.length := by
    intro i p hp
    rw [List.mem_filterMap] at hp
    obtain ⟨j, hj, hf⟩ := hp
    rw [List.mem_range'_1] at hj
    obtain ⟨h1, h2⟩ := pairCmp_min_max (by omega) hf
    exact ⟨h1, by omega, by omega⟩
  constructor
  · unfold List.Sorted
    rw [List.pairwise_map]
    unfold pairsOf
    rw [List.pairwise_flatMap]
    constructor
    · intro i _
      refine List.Pairwise.imp_of_mem ?_
        (List.pairwise_of_forall (fun _ _ => trivial))
      intro p q hp hq _
      rw [(hblock i p hp).1, (hblock i q hq).1]
    · refine (List.pairwise_lt_range _).imp_of_mem ?_
      intro i1 i2 h1 h2 hlt p hp q hq
      rw [(hblock i1 p hp).1, (hblock i2 q hq).1]
      omega
  · unfold List.Nodup
    rw [List.pairwise_map]
    unfold pairsOf
    rw [List.pairwise_flatMap]
    constructor
    · intro i hi
      rw [List.pairwise_filterMap]
      refine (List.pairwise_lt_range' _ _).imp_of_mem ?_
      intro j1 j2 h1 h2 hlt p hp q hq
      rw [List.mem_range'_1] at h1 h2
      obtain ⟨hp1, hp2⟩ := pairCmp_min_max (by omega) hp
      obtain ⟨hq1, hq2⟩ := pairCmp_min_max (by omega) hq
      intro hc
      have := congrArg Prod.snd hc
      rw [hp1, hp2, hq1, hq2] at this
      simp at this
      omega
    · refine (List.pairwise_lt_range _).imp_of_mem ?_
      intro i1 i2 h1 h2 hlt p hp q hq
      intro hc
      have := congrArg Prod.fst hc
      rw [(hblock i1 p hp).1, (hblock i2 q hq).1] at this
      simp at this
      omega

end Probabilistic

/-! ## The claims -/

/-- C1, counterexample: the claim predicts length min(k, number of
distinct available documents).  For interleave(2, [1], [1]) that is
min(2, 1) = 1, but the run with ranker draws 0, 0 and float draws 0
returns a result of length 2: after both copies of document 1 are gone,
the second iteration still draws and appends a None filler instead of
stopping short. -/
theorem claim_C1_counterexample :
    (Probabilistic.interleave 3 2 [1] [1] (fun _ => 0) (fun _ => 0)).map
      (fun r => r.docs.length) = some 2 ∧
    min 2 (([1] ++ [1] : List ℕ).dedup.length) = 1 := by decide

/-- C1, amended claim: for every k ≥ 1 and any inputs and random draws,
interleave(k, a, b) returns a result with exactly k documents and k
ranker indices — never fewer; when k exceeds the number of distinct
available documents the surplus positions hold None rather than the
result being shorter.  Exceeding k distinct documents is still not an
error. -/
theorem claim_C1_amended {α : Type} [DecidableEq α] (tau k : ℕ) (a b : List α)
    (idxs : ℕ → ℕ) (floats : ℕ → ℚ) (hk : 1 ≤ k) :
    ∃ r, Probabilistic.interleave tau k a b idxs floats = some r ∧
      r.docs.length = k ∧ r.rank_to_ranker_index.length = k := by
  obtain ⟨r, hr, h1, h2, h3, _⟩ :=
    Probabilistic.interleaveLoop_total tau k idxs floats k 0
      [RemovalList.ofList a, RemovalList.ofList b] ⟨[], [], 2⟩ hk (by simp)
  exact ⟨r, hr, h1, by simpa using h2⟩

/-- C1, witness: the amended claim at k = 1, a = [3], b = [4]. -/
theorem claim_C1_witness :
    ∃ r, Probabilistic.interleave 3 1 ([3] : List ℕ) [4] (fun _ => 0) (fun _ => 0) =
      some r ∧ r.docs.length = 1 ∧ r.rank_to_ranker_index.length = 1 :=
  claim_C1_amended 3 1 [3] [4] (fun _ => 0) (fun _ => 0) (by decide)

/-- C2: a chosen document is removed from every input sequence, not only
the drawn one (first conjunct), and consequently on duplicate-free
inputs no document is emitted twice by interleave or multileave (None
fillers are not documents; the list of emitted documents is
duplicate-free). -/
theorem claim_C2 :
    (∀ (α : Type) [DecidableEq α] (tau : ℕ) (rankings : List (RemovalList α))
      (i : ℕ) (f : ℚ) (result : Ranking α) (d : α),
      (∀ rl ∈ rankings, rl.InSync) →
      choice_one_of tau (rankings.getD i RemovalList.empty) f = some d →
      ∀ rl' ∈ (Probabilistic.advance tau rankings i f result).1,
        d ∉ rl'.chainValues) ∧
    (∀ (α : Type) [DecidableEq α] (tau k : ℕ) (a b : List α) (idxs : ℕ → ℕ)
      (floats : ℕ → ℚ) (r : Ranking α), a.Nodup → b.Nodup →
      Probabilistic.interleave tau k a b idxs floats = some r →
      (r.docs.filterMap id).Nodup) ∧
    (∀ (α : Type) [DecidableEq α] (tau k : ℕ) (lists : List (List α))
      (shuffle : ℕ → List ℕ → List ℕ) (floats : ℕ → ℚ) (r : Ranking α),
      (∀ l ∈ lists, l.Nodup) →
      Probabilistic.multileave tau k lists shuffle floats = some r →
      (r.docs.filterMap id).Nodup) := by
  refine ⟨?_, ?_, ?_⟩
  · intro α _ tau rankings i f result d hsync hc rl' hrl'
    have hfst : (Probabilistic.advance tau rankings i f result).1 =
        rankings.map (fun r_l => r_l.remove d) := by
      simp only [Probabilistic.advance, hc]
    rw [hfst] at hrl'
    rcases List.mem_map.mp hrl' with ⟨rl, hrl, he⟩
    rw [← he]
    exact RemovalList.not_mem_remove (hsync rl hrl) d
  · intro α _ tau k a b idxs floats r ha hb hr
    refine Probabilistic.interleaveLoop_nodup tau k idxs floats k 0 _ _
      ⟨?_, ?_, ?_⟩ r hr
    · intro rl hrl
      simp only [List.mem_cons, List.not_mem_nil, or_false] at hrl
      rcases hrl with rfl | rfl
      · exact RemovalList.inSync_ofList ha
      · exact RemovalList.inSync_ofList hb
    · intro d hd
      simp at hd
    · simp
  · intro α _ tau k lists shuffle floats r hl hr
    refine Probabilistic.multileaveLoop_nodup tau k shuffle floats (k + 1) 0 0 _ _
      ⟨?_, ?_, ?_⟩ r hr
    · intro rl hrl
      rcases List.mem_map.mp hrl with ⟨l, hml, he⟩
      rw [← he]
      exact RemovalList.inSync_ofList (hl l hml)
    · intro d hd
      simp at hd
    · simp

/-- C2, witness: the first conjunct at the state [[1], [1]] where both
rankers hold the same document 1 (the cross-list overlap case), and the
second conjunct at a concrete interleave run. -/
theorem claim_C2_witness :
    (∀ rl' ∈ (Probabilistic.advance 3
        [RemovalList.ofList [1], RemovalList.ofList [1]] 0 0
        (⟨[], [], 2⟩ : Ranking ℕ)).1, (1 : ℕ) ∉ rl'.chainValues) ∧
    (((⟨[some 1], [0], 2⟩ : Ranking ℕ).docs.filterMap id).Nodup) := by
  constructor
  · refine claim_C2.1 ℕ 3 _ 0 0 _ 1 ?_ (by decide)
    intro rl hrl
    simp only [List.mem_cons, List.not_mem_nil, or_false] at hrl
    rcases hrl with rfl | rfl
    · exact RemovalList.inSync_ofList (by decide)
    · exact RemovalList.inSync_ofList (by decide)
  · exact claim_C2.2.1 ℕ 3 1 [1] [] (fun _ => 0) (fun _ => 0) _
      (by decide) (by decide) (by decide)

/-- C3, counterexample: in interleave(1, [1], []) the first iteration
can draw ranker index 1 — a legal randint(0, 2) outcome — although that
ranker's sequence is empty; the draw is performed on the exhausted
sequence anyway and the run returns [None] with ranker trace [1].  The
index is drawn uniformly from {0, 1}, not from the rankers with
nonempty surviving sequences. -/
theorem claim_C3_counterexample :
    Probabilistic.interleave 3 1 [(1 : ℕ)] [] (fun _ => 1) (fun _ => 0) =
      some ⟨[none], [1], 2⟩ := by decide

/-- C3, amended claim: the ranker index is drawn uniformly from {0, 1}
with no restriction to nonempty surviving sequences; a draw on an
exhausted sequence is performed and appends None, while a draw in
[0, 1) on a ranker whose in-sync sequence is nonempty appends one of
its surviving documents. -/
theorem claim_C3_amended {α : Type} [DecidableEq α] (tau : ℕ)
    (rankings : List (RemovalList α)) (i : ℕ) (f : ℚ) (result : Ranking α) :
    ((rankings.getD i RemovalList.empty).chainValues = [] →
      (Probabilistic.advance tau rankings i f result).2.docs =
        result.docs ++ [none]) ∧
    ((rankings.getD i RemovalList.empty).InSync →
      1 ≤ (rankings.getD i RemovalList.empty).get_length → 0 ≤ f → f < 1 →
      ∃ d, (Probabilistic.advance tau rankings i f result).2.docs =
        result.docs ++ [some d] ∧
        d ∈ (rankings.getD i RemovalList.empty).chainValues) := by
  constructor
  · intro hempty
    rw [Probabilistic.advance_snd, choice_one_of_empty tau hempty f]
  · intro hsync hlen _ h1
    have hs := choice_one_of_isSome tau hsync hlen h1
    rw [Option.isSome_iff_exists] at hs
    obtain ⟨d, hd⟩ := hs
    refine ⟨d, ?_, choice_one_of_mem hd⟩
    rw [Probabilistic.advance_snd, hd]

/-- C3, witness: the amended claim at the state [[5], []]: drawing
ranker 1 (empty) appends None, drawing ranker 0 appends document 5. -/
theorem claim_C3_witness :
    ((Probabilistic.advance 3 [RemovalList.ofList [5], RemovalList.ofList []] 1 0
      (⟨[], [], 2⟩ : Ranking ℕ)).2.docs = [] ++ [none]) ∧
    (∃ d, (Probabilistic.advance 3 [RemovalList.ofList [5], RemovalList.ofList []] 0 0
      (⟨[], [], 2⟩ : Ranking ℕ)).2.docs = [] ++ [some d] ∧
      d ∈ (([RemovalList.ofList [5], RemovalList.ofList []].getD 0
        RemovalList.empty : RemovalList ℕ)).chainValues) :=
  ⟨(claim_C3_amended 3 [RemovalList.ofList [5], RemovalList.ofList []] 1 0
      ⟨[], [], 2⟩).1 (by decide),
    (claim_C3_amended 3 [RemovalList.ofList [5], RemovalList.ofList []] 0 0
      ⟨[], [], 2⟩).2 (RemovalList.inSync_ofList (by decide)) (by decide)
      (by decide) (by decide)⟩

/-- C4: for positive tau and n ≥ 1 the cumulative table has exactly n
entries, entry i for i < n - 1 is the quotient of the partial weight sum
up to rank i + 1 by the total weight sum up to rank n, the entries are
non-decreasing, and the last entry is exactly 1 (the source appends the
literal 1).  Arithmetic is exact (rationals in place of IEEE floats,
tau a positive integer exponent). -/
theorem claim_C4 (tau n : ℕ) (_htau : 1 ≤ tau) (hn : 1 ≤ n) :
    (cumulationCache tau n).length = n ∧
    (∀ i, i < n - 1 → (cumulationCache tau n).getD i 0 =
      (∑ r in Finset.Icc 1 (i + 1), 1 / (r : ℚ) ^ tau) /
        (∑ r in Finset.Icc 1 n, 1 / (r : ℚ) ^ tau)) ∧
    List.Sorted (· ≤ ·) (cumulationCache tau n) ∧
    (cumulationCache tau n).getLast? = some 1 := by
  refine ⟨cumulationCache_length tau n hn, ?_, cumulationCache_sorted tau n,
    cumulationCache_getLast? tau n⟩
  intro i hi
  rw [cumulationCache_getD tau n hi, sumCache_eq_sum_Icc, sumCache_eq_sum_Icc]

/-- C4, witness: the table for tau = 1, n = 1. -/
theorem claim_C4_witness :
    (cumulationCache 1 1).length = 1 ∧
    (cumulationCache 1 1).getLast? = some 1 := by
  have h := claim_C4 1 1 (by decide) (by decide)
  exact ⟨h.1, h.2.2.2⟩

/-- C5, counterexample: the claim requires a fail-fast invalid-argument
error for k ≤ 0, but multileave(0, [1], [2]) proceeds: it performs one
advance (the stopping check 0 ≤ len(result) fires only after a first
document is appended) and returns a result of length 1 instead of
failing. -/
theorem claim_C5_counterexample :
    Probabilistic.multileave 3 0 [[1], [(2 : ℕ)]] (fun _ l => l) (fun _ => 0) =
      some ⟨[some 2], [1], 2⟩ := by decide

/-- C5, amended claim: the public operations perform no argument
validation at all.  interleave with k ≤ 0 falls through and returns no
result (None); multileave with k ≤ 0 and at least one ranker returns a
one-element result; multileave with zero rankers loops forever (none
here models the divergence); tau is never checked; and in evaluate an
out-of-range click position only surfaces as an unchecked IndexError of
the list subscription, while a negative click position silently wraps
around Python-style instead of being rejected. -/
theorem claim_C5_amended :
    (∀ (α : Type) [DecidableEq α] (tau : ℕ) (a b : List α) (idxs : ℕ → ℕ)
      (floats : ℕ → ℚ), Probabilistic.interleave tau 0 a b idxs floats = none) ∧
    (Probabilistic.multileave 3 0 [[1], [(2 : ℕ)]] (fun _ l => l) (fun _ => 0) =
      some ⟨[some 2], [1], 2⟩) ∧
    (∀ (α : Type) [DecidableEq α] (tau k : ℕ) (shuffle : ℕ → List ℕ → List ℕ)
      (floats : ℕ → ℚ), (∀ r l, (shuffle r l).Perm l) →
      Probabilistic.multileave tau k ([] : List (List α)) shuffle floats = none) ∧
    (Probabilistic.evaluate (⟨[some 10, some 20], [0, 1], 2⟩ : Ranking ℕ) [5] =
      none) ∧
    (Probabilistic.evaluate (⟨[some 10, some 20], [0, 1], 2⟩ : Ranking ℕ) [-1] =
      some [(1, 0)]) := by
  refine ⟨?_, by decide, ?_, by decide, by decide⟩
  · intro α _ tau a b idxs floats
    rfl
  · intro α _ tau k shuffle floats hsh
    exact Probabilistic.multileaveLoop_nil tau k shuffle floats hsh (k + 1) 0 0 _

/-- C5, witness: the zero-ranker conjunct at the identity shuffle. -/
theorem claim_C5_witness :
    Probabilistic.multileave 3 1 ([] : List (List ℕ)) (fun _ l => l) (fun _ => 0) =
      none :=
  claim_C5_amended.2.2.1 ℕ 3 1 (fun _ l => l) (fun _ => 0)
    (fun _ l => List.Perm.refl l)

/-- C6, counterexample: rounds are built from all ranker indices, not
from those with nonempty surviving sequences.  First run: multileave(2,
[1], []) — the first round is the full permutation [0, 1] although
ranker 1 is empty from the start, and its advance appends None.  Second
run: multileave(2, [1], [1]) with k = 2 ≥ 2 rankers, both active at
round start — after the first advance takes document 1 out of both
sequences, the round's second advance draws the now-exhausted other
ranker and appends None, so the first full round does not contain one
document pick per active ranker. -/
theorem claim_C6_counterexample :
    Probabilistic.multileave 3 2 [[(1 : ℕ)], []] (fun _ l => l) (fun _ => 0) =
      some ⟨[none, some 1], [1, 0], 2⟩ ∧
    Probabilistic.multileave 3 2 [[(1 : ℕ)], [1]] (fun _ l => l) (fun _ => 0) =
      some ⟨[some 1, none], [1, 0], 2⟩ := by decide

/-- C6, amended claim: each round is a random permutation of all ranker
indices (regardless of emptiness), popped from the end, with advance
invoked once per index; the loop stops mid-round as soon as the result
reaches length k; hence for k ≥ ranker count the call returns and the
first ranker-count entries of the ranker trace are a permutation of all
ranker indices — one advance per ranker, each contributing a document
or a None. -/
theorem claim_C6_amended {α : Type} [DecidableEq α] (tau k : ℕ)
    (lists : List (List α)) (shuffle : ℕ → List ℕ → List ℕ) (floats : ℕ → ℚ)
    (hn : 1 ≤ lists.length) (hk : lists.length ≤ k)
    (hsh : ∀ r l, (shuffle r l).Perm l) :
    ∃ final, Probabilistic.multileave tau k lists shuffle floats = some final ∧
      (final.rank_to_ranker_index.take lists.length).Perm
        (List.range lists.length) := by
  have hrlen : (lists.map RemovalList.ofList).length = lists.length :=
    List.length_map _ _
  unfold Probabilistic.multileave
  rw [Probabilistic.multileaveLoop]
  have hperm : ((shuffle 0 (List.range (lists.map RemovalList.ofList).length)).reverse).Perm
      (List.range lists.length) := by
    rw [hrlen]
    exact (List.reverse_perm _).trans (hsh 0 _)
  have hilen : ((shuffle 0 (List.range (lists.map RemovalList.ofList).length)).reverse).length =
      lists.length := by
    rw [hperm.length_eq, List.length_range]
  cases hm : Probabilistic.multiRound tau k floats
      (shuffle 0 (List.range (lists.map RemovalList.ofList).length)).reverse 0
      (lists.map RemovalList.ofList) ⟨[], [], lists.length⟩ with
  | inr fin =>
    refine ⟨fin, rfl, ?_⟩
    have hble := Probabilistic.multiRound_inr_le tau k floats _ _ _ _ _ hm
    rw [hilen] at hble
    have hkeq : k = lists.length := by
      simp at hble
      omega
    obtain ⟨final', hf', _, hr2r', _⟩ :=
      Probabilistic.multiRound_inr_of_le tau k floats
        (shuffle 0 (List.range (lists.map RemovalList.ofList).length)).reverse 0
        (lists.map RemovalList.ofList) ⟨[], [], lists.length⟩
        (by show (0 : ℕ) < k; omega)
        (by rw [hilen]; show k ≤ 0 + lists.length; omega)
    rw [hm] at hf'
    injection hf' with hf'
    rw [← hf'] at hr2r'
    rw [hr2r']
    have htake : (shuffle 0 (List.range (lists.map RemovalList.ofList).length)).reverse.take
        (k - (⟨[], [], lists.length⟩ : Ranking α).docs.length) =
        (shuffle 0 (List.range (lists.map RemovalList.ofList).length)).reverse := by
      refine List.take_of_length_le ?_
      rw [hilen]
      show lists.length ≤ k - 0
      omega
    rw [htake]
    show (((shuffle 0 _).reverse).take lists.length).Perm _
    rw [List.take_of_length_le (by rw [hilen])]
    exact hperm
  | inl state =>
    obtain ⟨cnt', rankings', result'⟩ := state
    obtain ⟨h1, h2, h3, _, h5⟩ := Probabilistic.multiRound_inl tau k floats _ _ _ _ _ _ _ hm
    have hne : (shuffle 0 (List.range (lists.map RemovalList.ofList).length)).reverse ≠ [] := by
      intro hc
      rw [hc] at hilen
      simp at hilen
      omega
    have hlt : result'.docs.length < k := by
      rcases h5 with h5 | h5
      · exact absurd h5 hne
      · exact h5
    have hlen' : result'.docs.length = lists.length := by
      rw [h1, hilen]
      simp
    obtain ⟨final, hfin⟩ :=
      Probabilistic.multileaveLoop_isSome tau k shuffle floats hsh k 1 cnt'
        rankings' result'
        (by rw [h3, hrlen]; omega) (Or.inl hlt)
        (by
          rw [h3, hrlen, hlen']
          have h4 : k * 1 ≤ k * lists.length := Nat.mul_le_mul_left _ hn
          omega)
        (by omega)
    refine ⟨final, hfin, ?_⟩
    obtain ⟨ext, hext⟩ :=
      Probabilistic.multileaveLoop_ext tau k shuffle floats k 1 cnt'
        rankings' result' final hfin
    rw [hext, h2]
    show ((([] ++ (shuffle 0 _).reverse) ++ ext).take lists.length).Perm _
    rw [List.nil_append, ← hilen, List.take_left]
    rw [hilen]
    exact hperm

/-- C6, witness: the amended claim at k = 2, lists [[1], [2]], identity
shuffle. -/
theorem claim_C6_witness :
    ∃ final, Probabilistic.multileave 3 2 [[(1 : ℕ)], [2]] (fun _ l => l)
      (fun _ => 0) = some final ∧
      (final.rank_to_ranker_index.take 2).Perm (List.range 2) :=
  claim_C6_amended 3 2 [[1], [2]] (fun _ l => l) (fun _ => 0) (by decide)
    (by decide) (fun _ l => List.Perm.refl l)

/-- C7, counterexample: advance does not strictly decrease the maximum
remaining surviving length.  At the initial (hence reachable) state of
interleave(k, [1], [2, 3]) the maximum surviving length is 2; drawing
ranker 0 removes document 1 from both sequences, leaving lengths 0 and
2 — the maximum is still 2. -/
theorem claim_C7_counterexample :
    Probabilistic.maxLen ((Probabilistic.advance 3
      [RemovalList.ofList [1], RemovalList.ofList [2, 3]] 0 0
      (⟨[], [], 2⟩ : Ranking ℕ)).1) = 2 ∧
    Probabilistic.maxLen [RemovalList.ofList ([1] : List ℕ),
      RemovalList.ofList [2, 3]] = 2 := by decide

/-- C7, amended claim: termination holds, but for a different reason
than the claimed decrease of the maximum surviving length: every
advance appends exactly one entry to the result, so the result length
strictly increases, and the loops stop as soon as it reaches k —
interleave within k advances (k ≥ 1), multileave within k + 1 rounds
(at least one ranker). -/
theorem claim_C7_amended :
    (∀ (α : Type) [DecidableEq α] (tau : ℕ) (rankings : List (RemovalList α))
      (i : ℕ) (f : ℚ) (result : Ranking α),
      (Probabilistic.advance tau rankings i f result).2.docs.length =
        result.docs.length + 1) ∧
    (∀ (α : Type) [DecidableEq α] (tau k : ℕ) (a b : List α) (idxs : ℕ → ℕ)
      (floats : ℕ → ℚ), 1 ≤ k →
      (Probabilistic.interleave tau k a b idxs floats).isSome) ∧
    (∀ (α : Type) [DecidableEq α] (tau k : ℕ) (lists : List (List α))
      (shuffle : ℕ → List ℕ → List ℕ) (floats : ℕ → ℚ),
      1 ≤ lists.length → (∀ r l, (shuffle r l).Perm l) →
      (Probabilistic.multileave tau k lists shuffle floats).isSome) := by
  refine ⟨?_, ?_, ?_⟩
  · intro α _ tau rankings i f result
    exact Probabilistic.advance_docs_length tau rankings i f result
  · intro α _ tau k a b idxs floats hk
    obtain ⟨r, hr, _⟩ :=
      Probabilistic.interleaveLoop_total tau k idxs floats k 0
        [RemovalList.ofList a, RemovalList.ofList b] ⟨[], [], 2⟩ hk (by simp)
    unfold Probabilistic.interleave
    rw [hr]
    rfl
  · intro α _ tau k lists shuffle floats hn hsh
    obtain ⟨final, hfin⟩ :=
      Probabilistic.multileaveLoop_isSome tau k shuffle floats hsh (k + 1) 0 0
        (lists.map RemovalList.ofList) ⟨[], [], lists.length⟩
        (by rw [List.length_map]; exact hn)
        (by show (0 : ℕ) < k ∨ k ≤ 0 + 1; omega)
        (by
          show k ≤ 0 + (k + 1) * (lists.map RemovalList.ofList).length
          rw [List.length_map]
          have h2 : (k + 1) * 1 ≤ (k + 1) * lists.length :=
            Nat.mul_le_mul_left _ hn
          omega)
        (by omega)
    unfold Probabilistic.multileave
    rw [hfin]
    rfl

/-- C7, witness: the amended claim at concrete states and runs. -/
theorem claim_C7_witness :
    (Probabilistic.advance 3 [RemovalList.ofList [5]] 0 0
      (⟨[], [], 1⟩ : Ranking ℕ)).2.docs.length = 0 + 1 ∧
    (Probabilistic.interleave 3 1 ([6] : List ℕ) [7] (fun _ => 0)
      (fun _ => 0)).isSome ∧
    (Probabilistic.multileave 3 1 [[(8 : ℕ)]] (fun _ l => l)
      (fun _ => 0)).isSome :=
  ⟨claim_C7_amended.1 ℕ 3 [RemovalList.ofList [5]] 0 0 ⟨[], [], 1⟩,
    claim_C7_amended.2.1 ℕ 3 1 [6] [7] (fun _ => 0) (fun _ => 0) (by decide),
    claim_C7_amended.2.2 ℕ 3 1 [[8]] (fun _ l => l) (fun _ => 0) (by decide)
      (fun _ l => List.Perm.refl l)⟩

/-- C8, counterexample: RemovalList([1, 2, 1]) does not reject the
duplicate — traversal from the head yields 1, 2, 1, every occurrence in
order, not each distinct ID once at its first occurrence (which would
be [1, 2]). -/
theorem claim_C8_counterexample :
    (RemovalList.ofList ([1, 2, 1] : List ℕ)).chainValues = [1, 2, 1] ∧
    ([1, 2, 1] : List ℕ) ≠ [1, 2] := by decide

/-- C8, amended claim: appending an already-present ID is neither
rejected nor ignored: a duplicate node is appended, and traversal
yields every occurrence in original order.  length() still equals the
number of distinct IDs, because the predecessor dict keys deduplicate
(the most recent occurrence overwriting the stored predecessor). -/
theorem claim_C8_amended {α : Type} [DecidableEq α] (l : List α) :
    (RemovalList.ofList l).chainValues = l ∧
    (RemovalList.ofList l).get_length = l.dedup.length :=
  ⟨RemovalList.chainValues_ofList l, get_length_ofList l⟩

/-- C8, witness: the amended claim at the duplicate-free list [3, 4]. -/
theorem claim_C8_witness :
    (RemovalList.ofList ([3, 4] : List ℕ)).chainValues = [3, 4] ∧
    (RemovalList.ofList ([3, 4] : List ℕ)).get_length =
      ([3, 4] : List ℕ).dedup.length :=
  claim_C8_amended [3, 4]

/-- C9: evaluate tallies one click per position through the
position-to-ranker mapping and, for every pair of ranker indices below
the ranker count, lists the ordered pair (i, j) exactly when ranker i
collected strictly more clicks than ranker j — so each unordered pair
appears as (higher, lower) when counts differ and not at all on a tie.
The three concrete examples of the specification follow. -/
theorem claim_C9 :
    (∀ (α : Type) (rk : Ranking α) (clicks : List ℤ) (l : List (ℕ × ℕ)),
      Probabilistic.evaluate rk clicks = some l →
      ∀ i j : ℕ, i < rk.number_of_rankers → j < rk.number_of_rankers →
        ((i, j) ∈ l ↔
          Probabilistic.clickCount rk.rank_to_ranker_index clicks j <
            Probabilistic.clickCount rk.rank_to_ranker_index clicks i)) ∧
    (Probabilistic.evaluate
      (⟨[some 10, some 20, some 30, some 40], [0, 1, 0, 1], 2⟩ : Ranking ℕ)
      [0, 2] = some [(0, 1)]) ∧
    (Probabilistic.evaluate (⟨[some 10, some 20], [0, 1], 2⟩ : Ranking ℕ) [] =
      some []) ∧
    (Probabilistic.evaluate (⟨[some 10, some 20], [0, 1], 2⟩ : Ranking ℕ) [0, 1] =
      some []) := by
  refine ⟨?_, by decide, by decide, by decide⟩
  intro α rk clicks l hl i j hi hj
  unfold Probabilistic.evaluate at hl
  rw [Option.map_eq_some'] at hl
  obtain ⟨c, hc, hpc⟩ := hl
  obtain ⟨hlen, hval⟩ :=
    Probabilistic.tallyClicks_spec rk.rank_to_ranker_index clicks _ c hc
  rw [List.length_replicate] at hlen
  have hcd : ∀ m, m < rk.number_of_rankers → c.getD m 0 =
      Probabilistic.clickCount rk.rank_to_ranker_index clicks m := by
    intro m hm
    have := hval m (by rw [List.length_replicate]; exact hm)
    rw [this, Probabilistic.getD_replicate_zero]
    simp
  rw [← hpc, Probabilistic.mem_pairsOf, hlen, hcd i hi, hcd j hj]
  constructor
  · exact fun h => h.2
  · intro h
    have hne : i ≠ j := by
      intro he
      rw [he] at h
      exact lt_irrefl _ h
    exact ⟨by omega, h⟩

/-- C9, witness: the general characterization at a concrete evaluation
with mapping [0, 1] and a single click on position 0. -/
theorem claim_C9_witness :
    ((0, 1) ∈ [((0 : ℕ), (1 : ℕ))] ↔
      Probabilistic.clickCount [0, 1] [0] 1 <
        Probabilistic.clickCount [0, 1] [0] 0) :=
  claim_C9.1 ℕ ⟨[some 10, some 20], [0, 1], 2⟩ [0] [(0, 1)] (by decide) 0 1
    (by decide) (by decide)

/-- C10: evaluate is a pure function (determinism is inherent in the
embedding) whose output depends only on the position-to-ranker mapping,
the ranker count, and the clicks — two results agreeing on those, even
over different document types, evaluate identically; and in any output
each unordered ranker pair contributes at most one pair, the pairs
listed in ascending order of the smaller index. -/
theorem claim_C10 :
    (∀ (α β : Type) (rk1 : Ranking α) (rk2 : Ranking β) (clicks : List ℤ),
      rk1.rank_to_ranker_index = rk2.rank_to_ranker_index →
      rk1.number_of_rankers = rk2.number_of_rankers →
      Probabilistic.evaluate rk1 clicks = Probabilistic.evaluate rk2 clicks) ∧
    (∀ (α : Type) (rk : Ranking α) (clicks : List ℤ) (l : List (ℕ × ℕ)),
      Probabilistic.evaluate rk clicks = some l →
      ((l.map fun p => min p.1 p.2).Sorted (· ≤ ·) ∧
        (l.map fun p => (min p.1 p.2, max p.1 p.2)).Nodup)) := by
  constructor
  · intro α β rk1 rk2 clicks h1 h2
    unfold Probabilistic.evaluate
    rw [h1, h2]
  · intro α rk clicks l hl
    unfold Probabilistic.evaluate at hl
    rw [Option.map_eq_some'] at hl
    obtain ⟨c, _, hpc⟩ := hl
    rw [← hpc]
    exact Probabilistic.pairsOf_sorted_nodup c

/-- C10, witness: two results that differ only in their document
sequences evaluate identically. -/
theorem claim_C10_witness :
    Probabilistic.evaluate (⟨[some 5], [0, 1], 2⟩ : Ranking ℕ) [0] =
      Probabilistic.evaluate (⟨[none, some 7], [0, 1], 2⟩ : Ranking ℕ) [0] :=
  claim_C10.1 ℕ ℕ ⟨[some 5], [0, 1], 2⟩ ⟨[none, some 7], [0, 1], 2⟩ [0] rfl rfl

end Interleaving
